import Mathlib

/-!
# CuraEngine path order optimisation: embedding and properties

Shallow embedding of `src/utils/math.h` and `src/pathOrderOptimizer.h`.

* `round_divide`, `round_up_divide`, `addPolygon`, `addPolygons` and the
  constructor are translated from the headers.
* The bodies of `optimize()`, `cluster()` and the private seam helpers live in
  `pathOrderOptimizer.cpp`, which is not part of the sources at hand; their
  definitions below are marked `Modelled from the spec:` and follow sections
  4.1 and 4.2 of the specification.
-/

namespace cura

/-! ## utils/math.h -/

/-- Width modulus of `unsigned int`. -/
def UINT_MOD : Nat := 2 ^ 32

/-- Source `round_divide`: `(dividend + divisor / 2) / divisor` in `unsigned int`
arithmetic; the addition wraps modulo `2^32`. -/
def round_divide (dividend divisor : Nat) : Nat :=
  ((dividend + divisor / 2) % UINT_MOD) / divisor

/-- Source `round_up_divide`: `(dividend + divisor - 1) / divisor` in `unsigned int`
arithmetic; the addition and then the subtraction of one each wrap modulo `2^32`. -/
def round_up_divide (dividend divisor : Nat) : Nat :=
  (((dividend + divisor) % UINT_MOD + (UINT_MOD - 1)) % UINT_MOD) / divisor

/-! ## Geometry vocabulary -/

/-- Modelled from the spec: `utils/polygon.h` (the `Point` type) is missing. A point is a
2D coordinate with integer components `X`, `Y`. -/
structure Point where
  X : Int
  Y : Int
  deriving DecidableEq, Repr

instance : Sub Point := ⟨fun a b => ⟨a.X - b.X, a.Y - b.Y⟩⟩

/-- Modelled from the spec: squared length of a vector, the "squared-distance computation"
of the data model. Comparing squared lengths of integer vectors is the same as comparing
Euclidean lengths. -/
def vSize2 (p : Point) : Int := p.X * p.X + p.Y * p.Y

/-- Modelled from the spec: `utils/polygon.h` (`PolygonRef`) is missing. A polygon is an
ordered sequence of points. -/
abbrev Polygon := List Point

/-- Modelled from the spec: `utils/polygon.h` (`Polygons`) is missing. A container of
polygons with `size()` and `operator[]`; its size fits the `unsigned int` loop counter of
`addPolygons`, which therefore runs over every index without wrapping. -/
abbrev Polygons := List Polygon

/-- Modelled from the spec: `settings.h` (`EZSeamType`) is missing. The seam placement
policies named by the data model. -/
inductive EZSeamType where
  | SHORTEST
  | RANDOM
  | HIDDEN_AT_FARTHEST_POINT
  deriving DecidableEq, Repr

/-! ## pathOrderOptimizer.h : the two optimiser classes -/

/-- Source `class PathOrderOptimizer`: its five public data members. -/
structure PathOrderOptimizer where
  type : EZSeamType
  startPoint : Point
  polygons : List Polygon
  polyStart : List Int
  polyOrder : List Int
  deriving DecidableEq, Repr

/-- Source `class LineOrderOptimizer`: its five public data members. -/
structure LineOrderOptimizer where
  cluster_grid_size : Nat
  startPoint : Point
  lines : List Polygon
  polyStart : List Int
  polyOrder : List Int
  deriving DecidableEq, Repr

/-- Source constructor `PathOrderOptimizer(Point startPoint, EZSeamType type)`: the two
members of the initialiser list are set, the three vectors are default-constructed. -/
def PathOrderOptimizer.construct (startPoint : Point) (type : EZSeamType) :
    PathOrderOptimizer :=
  { type := type, startPoint := startPoint, polygons := [], polyStart := [], polyOrder := [] }

/-- Source constructor called with one argument: the default argument
`EZSeamType::SHORTEST` is supplied for `type`. -/
def PathOrderOptimizer.constructDefault (startPoint : Point) : PathOrderOptimizer :=
  PathOrderOptimizer.construct startPoint EZSeamType.SHORTEST

/-- Source `PathOrderOptimizer::addPolygon`: `this->polygons.push_back(polygon)`. -/
def PathOrderOptimizer.addPolygon (s : PathOrderOptimizer) (polygon : Polygon) :
    PathOrderOptimizer :=
  { s with polygons := s.polygons ++ [polygon] }

/-- Source `PathOrderOptimizer::addPolygons`: for `i = 0 .. polygons.size() - 1` in
increasing order, `this->polygons.push_back(polygons[i])`. -/
def PathOrderOptimizer.addPolygons (s : PathOrderOptimizer) (polygons : Polygons) :
    PathOrderOptimizer :=
  (List.range polygons.length).foldl (fun acc i => acc.addPolygon (polygons.getD i [])) s

/-- Source `LineOrderOptimizer::addPolygon`: `this->lines.push_back(polygon)`. -/
def LineOrderOptimizer.addPolygon (s : LineOrderOptimizer) (polygon : Polygon) :
    LineOrderOptimizer :=
  { s with lines := s.lines ++ [polygon] }

/-- Source `LineOrderOptimizer::addPolygons`: for `i = 0 .. polygons.size() - 1` in
increasing order, `this->lines.push_back(polygons[i])`. -/
def LineOrderOptimizer.addPolygons (s : LineOrderOptimizer) (polygons : Polygons) :
    LineOrderOptimizer :=
  (List.range polygons.length).foldl (fun acc i => acc.addPolygon (polygons.getD i [])) s

/-- One call a client can make on a `PathOrderOptimizer` before `optimize()`. -/
inductive AddCall where
  | one (polygon : Polygon)
  | many (polygons : Polygons)

/-- Effect of one add call on the optimiser state. -/
def PathOrderOptimizer.applyCall (s : PathOrderOptimizer) : AddCall → PathOrderOptimizer
  | AddCall.one p => s.addPolygon p
  | AddCall.many ps => s.addPolygons ps

/-- Effect of a finite sequence of add calls, first call first. -/
def PathOrderOptimizer.applyCalls (s : PathOrderOptimizer) (calls : List AddCall) :
    PathOrderOptimizer :=
  calls.foldl PathOrderOptimizer.applyCall s

/-! ## PathOrderOptimizer: seam helpers and `optimize()` -/

/-- Modelled from the spec: the body of `getClosestPointInPolygon` is missing. Loop of the
SHORTEST linear scan over the vertices after the first: `i` is the index of the vertex
examined, `best` the best index so far, `bestDist` its squared distance to `prev`. A vertex
replaces the best one only when strictly closer, so ties keep the lowest index. -/
def closestScan (prev : Point) : List Point → Nat → Nat → Int → Nat
  | [], _, best, _ => best
  | p :: ps, i, best, bestDist =>
    if vSize2 (p - prev) < bestDist then closestScan prev ps (i + 1) i (vSize2 (p - prev))
    else closestScan prev ps (i + 1) best bestDist

/-- Modelled from the spec: the body of `getClosestPointInPolygon` is missing. SHORTEST:
"the vertex minimizing distance to the current position (linear scan; ties broken by lowest
vertex index)"; a polygon without points resolves to index 0. -/
def closestIndex (prev : Point) (poly : Polygon) : Nat :=
  match poly with
  | [] => 0
  | p :: ps => closestScan prev ps 1 0 (vSize2 (p - prev))

/-- Modelled from the spec: the body of `getFarthestPointInPolygon` is missing. Loop of the
scan for the highest `Y`; `bestY` is the highest value so far, at index `best`. -/
def farthestScan : List Point → Nat → Nat → Int → Nat
  | [], _, best, _ => best
  | p :: ps, i, best, bestY =>
    if bestY < p.Y then farthestScan ps (i + 1) i p.Y
    else farthestScan ps (i + 1) best bestY

/-- Modelled from the spec: the body of `getFarthestPointInPolygon` is missing.
HIDDEN_AT_FARTHEST_POINT: "the vertex with the maximal coordinate along the away from
front axis" (the header: highest y), independent of the current position; a polygon
without points resolves to index 0. -/
def farthestIndex (poly : Polygon) : Nat :=
  match poly with
  | [] => 0
  | p :: ps => farthestScan ps 1 0 p.Y

/-- Modelled from the spec: the body of `getRandomPointInPolygon` is missing. RANDOM: a
chosen vertex index, computed from one draw `r` of the injected pseudo-random source; a
polygon with 0 or 1 point resolves to index 0. -/
def randomIndex (r : Nat) (poly : Polygon) : Nat :=
  if poly.length ≤ 1 then 0 else r % poly.length

/-- Modelled from the spec: the body of `getClosestPointInPolygon` is missing; see
`closestIndex`. -/
def PathOrderOptimizer.getClosestPointInPolygon (s : PathOrderOptimizer) (prev : Point)
    (i_polygon : Nat) : Nat :=
  closestIndex prev (s.polygons.getD i_polygon [])

/-- Modelled from the spec: the body of `getFarthestPointInPolygon` is missing; see
`farthestIndex`. -/
def PathOrderOptimizer.getFarthestPointInPolygon (s : PathOrderOptimizer) (poly_idx : Nat) :
    Nat :=
  farthestIndex (s.polygons.getD poly_idx [])

/-- Modelled from the spec: the body of `getRandomPointInPolygon` is missing; see
`randomIndex`. The draw `r` is the value the random source returns for this call. -/
def PathOrderOptimizer.getRandomPointInPolygon (s : PathOrderOptimizer) (r : Nat)
    (poly_idx : Nat) : Nat :=
  randomIndex r (s.polygons.getD poly_idx [])

/-- Modelled from the spec: the body of `getPolyStart` is missing. The candidate start
vertex of a shape "under the active seam policy" (section 4.1, step 2). -/
def PathOrderOptimizer.getPolyStart (s : PathOrderOptimizer) (r : Nat) (prev_point : Point)
    (poly_idx : Nat) : Nat :=
  match s.type with
  | EZSeamType.SHORTEST => s.getClosestPointInPolygon prev_point poly_idx
  | EZSeamType.RANDOM => s.getRandomPointInPolygon r poly_idx
  | EZSeamType.HIDDEN_AT_FARTHEST_POINT => s.getFarthestPointInPolygon poly_idx

/-- Modelled from the spec: squared distance from the current position to vertex `v` of a
shape. A shape without such a vertex (no points) has "trivial travel cost", zero. -/
def vertexDist2 (cur : Point) (poly : Polygon) (v : Nat) : Int :=
  match poly.get? v with
  | some p => vSize2 (p - cur)
  | none => 0

/-- Loop of `nearest`: `best` is the best element so far; a later element replaces it only
when its key is strictly smaller. -/
def nearestScan {α : Type} (key : α → Int) : List α → α → α
  | [], best => best
  | x :: xs, best =>
    if key x < key best then nearestScan key xs x else nearestScan key xs best

/-- Modelled from the spec: the greedy selection "select the one ... nearest to the current
position (ties broken by lowest index)": the first element of the list with minimal key. -/
def nearest {α : Type} (key : α → Int) : List α → Option α
  | [] => none
  | x :: xs => some (nearestScan key xs x)

/-- Modelled from the spec: section 4.1 step 2, "for each unvisited shape, compute its
candidate start vertex under the active seam policy". The result pairs each unvisited shape
index with its candidate vertex index; `rng` is the injected pseudo-random source and `ctr`
the number of draws made so far, each shape taking the next draw. -/
def PathOrderOptimizer.candidates (s : PathOrderOptimizer) (rng : Nat → Nat) (cur : Point) :
    Nat → List Nat → List (Nat × Nat)
  | _, [] => []
  | ctr, i :: rest => (i, s.getPolyStart (rng ctr) cur i) :: candidates s rng cur (ctr + 1) rest

/-- Modelled from the spec: the body of `optimize()` is missing. The greedy loop of section
4.1, steps 3 and 4: among the unvisited shapes pick the one whose candidate start vertex is
nearest to the current position (lowest shape index on ties), append it to the visit order,
record its candidate vertex, remove it from the unvisited set and move the current position
to that vertex (a shape without points leaves the position where it is). `fuel` bounds the
number of iterations. The result is the pair (start index per shape, visit order). -/
def PathOrderOptimizer.optimizeLoop (s : PathOrderOptimizer) (rng : Nat → Nat) :
    Nat → Point → Nat → List Nat → List Nat → List Nat → List Nat × List Nat
  | 0, _, _, _, starts, order => (starts, order)
  | fuel + 1, cur, ctr, unvisited, starts, order =>
    match nearest (fun c => vertexDist2 cur (s.polygons.getD c.1 []) c.2)
        (s.candidates rng cur ctr unvisited) with
    | none => (starts, order)
    | some c =>
      optimizeLoop s rng fuel (((s.polygons.getD c.1 []).get? c.2).getD cur)
        (ctr + unvisited.length) (unvisited.erase c.1) (starts.set c.1 c.2) (order ++ [c.1])

/-- Modelled from the spec: the body of `optimize()` is missing. Section 4.1: the current
position starts at `startPoint`, all shapes are unvisited, and the greedy loop runs until
no shape is left; it "sets polyStart and polyOrder". -/
def PathOrderOptimizer.optimize (s : PathOrderOptimizer) (rng : Nat → Nat) :
    PathOrderOptimizer :=
  let n := s.polygons.length
  let r := s.optimizeLoop rng n s.startPoint 0 (List.range n) (List.replicate n 0) []
  { s with polyStart := r.1.map Int.ofNat, polyOrder := r.2.map Int.ofNat }


/-! ## LineOrderOptimizer: `cluster()` and `optimize()` -/

/-- Modelled from the spec: one of the two ends of a line; `back = false` is its first
point, `back = true` its last point. A line without points has no ends. -/
def endpoint (line : Polygon) (back : Bool) : Option Point :=
  if back then line.getLast? else line.head?

/-- Modelled from the spec: vertex index of an end of a line, `0` for the first point and
`size - 1` for the last (0 for a line without points). -/
def endIndex (line : Polygon) (back : Bool) : Nat :=
  if back then line.length - 1 else 0

/-- Modelled from the spec: the end at which a cluster member `(line index, entered at its
back end)` is entered. -/
def LineOrderOptimizer.entry (s : LineOrderOptimizer) (m : Nat × Bool) : Option Point :=
  endpoint (s.lines.getD m.1 []) m.2

/-- Modelled from the spec: the end at which a cluster member is left, opposite to its
entry. -/
def LineOrderOptimizer.exit (s : LineOrderOptimizer) (m : Nat × Bool) : Option Point :=
  endpoint (s.lines.getD m.1 []) (!m.2)

/-- Modelled from the spec: the "near endpoint" of a line seen from point `t`: the closer
of its two ends (the first point on a tie), with its squared distance to `t`. -/
def nearEnd (t : Point) (line : Polygon) : Option (Bool × Int) :=
  match line.head?, line.getLast? with
  | some a, some b =>
    if vSize2 (b - t) < vSize2 (a - t) then some (true, vSize2 (b - t))
    else some (false, vSize2 (a - t))
  | _, _ => none

/-- Modelled from the spec: the not-yet-clustered lines "whose near endpoint lies within
clusterGridSize of the current cluster's trailing endpoint" `t`, each with the end to enter
it from and the squared distance. The distance is at most the grid size exactly when its
square is at most the square of the grid size. -/
def LineOrderOptimizer.neighbourCandidates (s : LineOrderOptimizer) (t : Point) :
    List Nat → List (Nat × Bool × Int)
  | [] => []
  | i :: rest =>
    match nearEnd t (s.lines.getD i []) with
    | some (b, d) =>
      if d ≤ (s.cluster_grid_size : Int) * (s.cluster_grid_size : Int) then
        (i, b, d) :: neighbourCandidates s t rest
      else neighbourCandidates s t rest
    | none => neighbourCandidates s t rest

/-- Modelled from the spec: "finding the nearest not-yet-clustered line whose near endpoint
lies within clusterGridSize of the current cluster's trailing endpoint" (lowest index on
ties); no trailing endpoint, no neighbour. -/
def LineOrderOptimizer.findNeighbour (s : LineOrderOptimizer) (trailing : Option Point)
    (remaining : List Nat) : Option (Nat × Bool) :=
  match trailing with
  | none => none
  | some t =>
    match nearest (fun c => c.2.2) (s.neighbourCandidates t remaining) with
    | none => none
    | some c => some (c.1, c.2.1)

/-- Modelled from the spec: the trailing endpoint of the cluster under construction, the
exit end of its last line. -/
def LineOrderOptimizer.trailing (s : LineOrderOptimizer) (current : List (Nat × Bool)) :
    Option Point :=
  match current.getLast? with
  | none => none
  | some m => s.exit m

/-- Modelled from the spec: closing the cluster under construction appends it to the
finished clusters; nothing is appended while no cluster has been seeded. -/
def closeCluster (done : List (List (Nat × Bool))) (current : List (Nat × Bool)) :
    List (List (Nat × Bool)) :=
  if current.isEmpty then done else done ++ [current]

/-- Modelled from the spec: the body of `cluster()` is missing. Stage A of section 4.2:
"repeatedly seed a new cluster from an arbitrary remaining line (lowest remaining index),
then repeatedly extend the cluster by finding the nearest not-yet-clustered line whose near
endpoint lies within clusterGridSize of the current cluster's trailing endpoint; if no such
neighbor exists, close the cluster and seed a new one". Every iteration moves one line out
of `remaining`; a seed is taken in its stored direction. `fuel` bounds the iterations. -/
def LineOrderOptimizer.clusterLoop (s : LineOrderOptimizer) :
    Nat → List Nat → List (Nat × Bool) → List (List (Nat × Bool)) → List (List (Nat × Bool))
  | 0, _, current, done => closeCluster done current
  | fuel + 1, remaining, current, done =>
    match remaining with
    | [] => closeCluster done current
    | seed :: rest =>
      match s.findNeighbour (s.trailing current) remaining with
      | some m => clusterLoop s fuel (remaining.erase m.1) (current ++ [m]) done
      | none => clusterLoop s fuel rest [(seed, false)] (closeCluster done current)

/-- Modelled from the spec: the body of `cluster()` is missing. The clusters with, for every
line, the end it is entered from when the chain is followed front to back. -/
def LineOrderOptimizer.clusterChains (s : LineOrderOptimizer) : List (List (Nat × Bool)) :=
  s.clusterLoop s.lines.length (List.range s.lines.length) [] []

/-- Modelled from the spec: the body of `cluster()` is missing. The return value of the
source signature: "clusters of polygons, where each cluster is represented with a vector of
indices". -/
def LineOrderOptimizer.cluster (s : LineOrderOptimizer) : List (List Nat) :=
  s.clusterChains.map (fun c => c.map Prod.fst)

/-- Modelled from the spec: squared distance from the current position to an extreme
endpoint of a cluster; a cluster of a line without points has "trivial travel cost". -/
def extremeDist2 (cur : Point) (e : Option Point) : Int :=
  match e with
  | some p => vSize2 (p - cur)
  | none => 0

/-- Modelled from the spec: first extreme endpoint of a cluster, "its first line's free
end". -/
def LineOrderOptimizer.firstExtreme (s : LineOrderOptimizer) (c : List (Nat × Bool)) :
    Option Point :=
  match c.head? with
  | none => none
  | some m => s.entry m

/-- Modelled from the spec: second extreme endpoint of a cluster, "its last line's free
end". -/
def LineOrderOptimizer.lastExtreme (s : LineOrderOptimizer) (c : List (Nat × Bool)) :
    Option Point :=
  s.trailing c

/-- Modelled from the spec: Stage B candidates: for every unvisited cluster `k` the two
ways to enter it, from its first extreme (`false`) and from its last extreme (`true`), with
the squared travel distance from the current position. -/
def LineOrderOptimizer.clusterCandidates (s : LineOrderOptimizer)
    (clusters : List (List (Nat × Bool))) (cur : Point) : List Nat → List (Nat × Bool × Int)
  | [] => []
  | k :: rest =>
    (k, false, extremeDist2 cur (s.firstExtreme (clusters.getD k []))) ::
    (k, true, extremeDist2 cur (s.lastExtreme (clusters.getD k []))) ::
    clusterCandidates s clusters cur rest

/-- Modelled from the spec: the chain of a cluster as traversed: as stored when entered
from its first extreme; reversed, with every line entered from its other end, when entered
from its last extreme ("orienting each line so traversal is continuous"). -/
def orient (c : List (Nat × Bool)) (fromLast : Bool) : List (Nat × Bool) :=
  if fromLast then c.reverse.map (fun m => (m.1, !m.2)) else c

/-- Modelled from the spec: recording in `startIndexPerShape` the entry vertex of every
line of a traversed chain. -/
def LineOrderOptimizer.recordStarts (s : LineOrderOptimizer) (chain : List (Nat × Bool))
    (starts : List Nat) : List Nat :=
  chain.foldl (fun st m => st.set m.1 (endIndex (s.lines.getD m.1 []) m.2)) starts

/-- Modelled from the spec: the body of `optimize()` is missing. Stage B of section 4.2:
"the same greedy nearest-neighbor traversal as 4.1 over clusters, choosing at each step
both the nearest cluster and which of its two extreme ends to enter from", then flattening
the chain into the visit order and the start indices; the current position moves to the
exit of the chain. `fuel` bounds the iterations. -/
def LineOrderOptimizer.optimizeLoop (s : LineOrderOptimizer)
    (clusters : List (List (Nat × Bool))) :
    Nat → Point → List Nat → List Nat → List Nat → List Nat × List Nat
  | 0, _, _, starts, order => (starts, order)
  | fuel + 1, cur, unvisited, starts, order =>
    match nearest (fun c => c.2.2) (s.clusterCandidates clusters cur unvisited) with
    | none => (starts, order)
    | some c =>
      optimizeLoop s clusters fuel
        ((s.trailing (orient (clusters.getD c.1 []) c.2.1)).getD cur)
        (unvisited.erase c.1)
        (s.recordStarts (orient (clusters.getD c.1 []) c.2.1) starts)
        (order ++ (orient (clusters.getD c.1 []) c.2.1).map Prod.fst)

/-- Modelled from the spec: the body of `optimize()` is missing. Section 4.2: cluster the
lines (Stage A), then order the clusters greedily from `startPoint` (Stage B); it "sets
polyStart and polyOrder". -/
def LineOrderOptimizer.optimize (s : LineOrderOptimizer) : LineOrderOptimizer :=
  let clusters := s.clusterChains
  let r := s.optimizeLoop clusters clusters.length s.startPoint (List.range clusters.length)
    (List.replicate s.lines.length 0) []
  { s with polyStart := r.1.map Int.ofNat, polyOrder := r.2.map Int.ofNat }


/-- Clustering property of two consecutive lines `a`, `b` of a cluster: the end at which
`a` is left and the end at which `b` is entered (their connecting endpoints) both exist and
are at distance at most `cluster_grid_size`, stated on the squares. -/
def LineOrderOptimizer.Connected (s : LineOrderOptimizer) (a b : Nat × Bool) : Prop :=
  ∃ p q : Point, s.exit a = some p ∧ s.entry b = some q ∧
    vSize2 (q - p) ≤ (s.cluster_grid_size : Int) * (s.cluster_grid_size : Int)

/-- Validity of a start index `v` for a shape: a vertex index of the shape when it has
points, and `0` when it has none. -/
def ValidStart (poly : Polygon) (v : Nat) : Prop :=
  (poly ≠ [] → v < poly.length) ∧ (poly = [] → v = 0)

/-- Validity of a start index array: one entry per shape, each valid for its shape. -/
def AllValid (polys : List Polygon) (starts : List Nat) : Prop :=
  starts.length = polys.length ∧
  ∀ i v, starts[i]? = some v → ValidStart (polys.getD i []) v

/-- A path optimiser holding one polygon without points. -/
def degenerateInput : PathOrderOptimizer :=
  { type := EZSeamType.SHORTEST, startPoint := ⟨0, 0⟩, polygons := [[]],
    polyStart := [], polyOrder := [] }

/-! ## Travel distance of a visit order -/

/-- Position of the chosen start vertex of shape `i`, `polygons[i][polyStart[i]]`, when the
shape has such a vertex. -/
def startVertex (polys : List Polygon) (starts : List Int) (i : Int) : Option Point :=
  match starts[i.toNat]? with
  | some v => (polys.getD i.toNat []).get? v.toNat
  | none => none

/-- Route of a visit order: the chosen start vertices of the shapes in the order in which
they are visited (a shape without points contributes no position). -/
def route (polys : List Polygon) (starts : List Int) : List Int → List Point
  | [] => []
  | i :: rest =>
    match startVertex polys starts i with
    | some p => p :: route polys starts rest
    | none => route polys starts rest

/-- Route of the input order: the shapes `unvisited` are visited in the order given, each
start vertex chosen by the seam policy from the then-current position. -/
def PathOrderOptimizer.inputOrderRoute (s : PathOrderOptimizer) (rng : Nat → Nat) :
    Point → Nat → List Nat → List Point
  | _, _, [] => []
  | cur, ctr, i :: rest =>
    match (s.polygons.getD i []).get? (s.getPolyStart (rng ctr) cur i) with
    | some p => p :: inputOrderRoute s rng p (ctr + 1) rest
    | none => inputOrderRoute s rng cur (ctr + 1) rest

/-- Total travel distance of a route from position `cur`, for a distance function `d`:
the distance to the first position plus the distances between consecutive positions. -/
def travel {α : Type} [Zero α] [Add α] (d : Point → Point → α) : Point → List Point → α
  | _, [] => 0
  | cur, p :: rest => d cur p + travel d p rest

/-- The Euclidean distance on integer points, as a real-valued function: non-negative,
with square the squared length of the difference vector. -/
def IsEuclidean (d : Point → Point → ℝ) : Prop :=
  ∀ p q : Point, 0 ≤ d p q ∧ d p q * d p q = ((vSize2 (q - p) : Int) : ℝ)

/-- Three single-point shapes on a line, at `x = -3`, `x = 2` and `x = 5`, with the start
point at the origin and the SHORTEST policy. -/
def collinearInput : PathOrderOptimizer :=
  { type := EZSeamType.SHORTEST, startPoint := ⟨0, 0⟩,
    polygons := [[⟨-3, 0⟩], [⟨2, 0⟩], [⟨5, 0⟩]], polyStart := [], polyOrder := [] }

/-- Greedy property of a visit order `order` with start indices `starts`, from the loop
state `cur` (current position), `ctr` (draws made so far) and `unvisited`. For the shape
`i` visited next: its recorded start index is the candidate the seam policy computes for
it at this step (`candidates`, from `cur`, with this step's draw under RANDOM); no
candidate of an unvisited shape is nearer to `cur`; and every candidate of a shape of
lower index is strictly farther (lowest index on ties). A shape without points counts as
at distance 0 and leaves the position where it is. The rest of the order has the same
property from the state the step leaves: position at the chosen vertex, one draw consumed
per unvisited shape, `i` removed from the unvisited shapes. -/
def PathOrderOptimizer.GreedyLegs (s : PathOrderOptimizer) (rng : Nat → Nat)
    (starts : List Nat) : Point → Nat → List Nat → List Nat → Prop
  | _, _, _, [] => True
  | cur, ctr, unvisited, i :: rest =>
    ((i, starts.getD i 0) ∈ s.candidates rng cur ctr unvisited ∧
      ∀ c, c ∈ s.candidates rng cur ctr unvisited →
        vertexDist2 cur (s.polygons.getD i []) (starts.getD i 0)
          ≤ vertexDist2 cur (s.polygons.getD c.1 []) c.2 ∧
        (c.1 < i →
          vertexDist2 cur (s.polygons.getD i []) (starts.getD i 0)
            < vertexDist2 cur (s.polygons.getD c.1 []) c.2)) ∧
    GreedyLegs s rng starts (((s.polygons.getD i []).get? (starts.getD i 0)).getD cur)
      (ctr + unvisited.length) (unvisited.erase i) rest

/-- A path optimiser with the RANDOM policy and two polygons of two points each. -/
def randomInput : PathOrderOptimizer :=
  { type := EZSeamType.RANDOM, startPoint := ⟨0, 0⟩,
    polygons := [[⟨5, 0⟩, ⟨6, 0⟩], [⟨1, 0⟩, ⟨100, 0⟩]], polyStart := [], polyOrder := [] }

/-- A path optimiser with the SHORTEST policy holding one polygon of four points; the
second and the third point are both closest to the start point. -/
def singleInput : PathOrderOptimizer :=
  { type := EZSeamType.SHORTEST, startPoint := ⟨0, 0⟩,
    polygons := [[⟨3, 0⟩, ⟨1, 1⟩, ⟨-1, 1⟩, ⟨5, 5⟩]], polyStart := [], polyOrder := [] }

/-- A line optimiser to which no line has been added. -/
def emptyLines : LineOrderOptimizer :=
  { cluster_grid_size := 5, startPoint := ⟨0, 0⟩, lines := [], polyStart := [],
    polyOrder := [] }

/-! # Properties -/

/-! ## Rounding division -/

/-- Without wrap-around the two-step `unsigned int` computation of `dividend + divisor - 1`
is the exact value. -/
theorem round_up_divide_exact (n d : Nat) (hd : 0 < d) (h : n + d - 1 < 2 ^ 32) :
    round_up_divide n d = (n + d - 1) / d := by
  have e : ((n + d) % UINT_MOD + (UINT_MOD - 1)) % UINT_MOD = n + d - 1 := by
    simp only [UINT_MOD]
    norm_num at h ⊢
    omega
  simp only [round_up_divide, e]

/-- Without wrap-around the `unsigned int` computation of `dividend + divisor / 2` is the
exact value. -/
theorem round_divide_exact (n d : Nat) (h : n + d / 2 < 2 ^ 32) :
    round_divide n d = (n + d / 2) / d := by
  simp only [round_divide, UINT_MOD, Nat.mod_eq_of_lt h]

/-- C6: `round_divide` does not round to the nearest integer on every 32-bit input: for
dividend `2^32 - 1` and divisor `2` the sum wraps to `0`, the function returns `0`, and
`2 * |0 * 2 - (2^32 - 1)|` exceeds the divisor. -/
theorem round_divide_wraps :
    round_divide 4294967295 2 = 0 ∧
    ¬ (2 * |((round_divide 4294967295 2 : Nat) : Int) * 2 - 4294967295| ≤ 2) := by
  have e : round_divide 4294967295 2 = 0 := by decide
  refine ⟨e, ?_⟩
  rw [e]
  norm_num

/-- C7 (as stated): `round_up_divide` does not round to the nearest integer:
`round_up_divide 1 3 = 1`, and `2 * |1 * 3 - 1| = 4` exceeds the divisor `3`. -/
theorem round_up_divide_not_nearest :
    round_up_divide 1 3 = 1 ∧
    ¬ (2 * |((round_up_divide 1 3 : Nat) : Int) * 3 - 1| ≤ 3) := by
  have e : round_up_divide 1 3 = 1 := by decide
  refine ⟨e, ?_⟩
  rw [e]
  norm_num

/-- C7 (amended): for a non-zero divisor and no wrap-around (`n + d - 1 < 2^32`),
`round_up_divide n d` is `n / d` rounded up: the result `r` satisfies
`n ≤ r * d < n + d`. -/
theorem round_up_divide_rounds_up (n d : Nat) (hd : 0 < d) (h : n + d - 1 < 2 ^ 32) :
    n ≤ round_up_divide n d * d ∧ round_up_divide n d * d < n + d := by
  rw [round_up_divide_exact n d hd h]
  have h1 : (n + d - 1) / d * d ≤ n + d - 1 := Nat.div_mul_le_self _ _
  have h2 : n + d - 1 < ((n + d - 1) / d + 1) * d := by
    have := Nat.lt_div_mul_add (a := n + d - 1) hd
    rw [Nat.add_mul, Nat.one_mul]
    exact this
  rw [Nat.add_mul, Nat.one_mul] at h2
  omega

/-- Witness of `round_up_divide_rounds_up` at dividend 7, divisor 2 (result 4). -/
theorem round_up_divide_rounds_up_witness :
    (0 < 2 ∧ 7 + 2 - 1 < 2 ^ 32) ∧
    (7 ≤ round_up_divide 7 2 * 2 ∧ round_up_divide 7 2 * 2 < 7 + 2) :=
  ⟨by decide, round_up_divide_rounds_up 7 2 (by decide) (by decide)⟩

/-! ## Adding shapes -/

/-- The loop of `addPolygons` run over the first `k` indices appends the first `k`
polygons and touches no other member. -/
theorem PathOrderOptimizer.addPolygons_loop (ps : Polygons) (s : PathOrderOptimizer)
    (k : Nat) (hk : k ≤ ps.length) :
    (List.range k).foldl (fun acc i => acc.addPolygon (ps.getD i [])) s
      = { s with polygons := s.polygons ++ ps.take k } := by
  induction k with
  | zero => simp
  | succ k ih =>
    have hlt : k < ps.length := hk
    rw [List.range_succ, List.foldl_append, ih (Nat.le_of_lt hlt)]
    simp only [List.foldl_cons, List.foldl_nil, PathOrderOptimizer.addPolygon]
    rw [List.take_succ, List.getD_eq_getElem?_getD, List.getElem?_eq_getElem hlt]
    simp

/-- The method `addPolygons` appends all polygons in order and touches no other member. -/
theorem PathOrderOptimizer.addPolygons_eq (s : PathOrderOptimizer) (ps : Polygons) :
    s.addPolygons ps = { s with polygons := s.polygons ++ ps } := by
  unfold PathOrderOptimizer.addPolygons
  rw [PathOrderOptimizer.addPolygons_loop ps s ps.length (Nat.le_refl _), List.take_length]

/-- The loop of `addPolygons` run over the first `k` indices appends the first `k`
lines and touches no other member. -/
theorem LineOrderOptimizer.addLines_loop (ps : Polygons) (s : LineOrderOptimizer)
    (k : Nat) (hk : k ≤ ps.length) :
    (List.range k).foldl (fun acc i => acc.addPolygon (ps.getD i [])) s
      = { s with lines := s.lines ++ ps.take k } := by
  induction k with
  | zero => simp
  | succ k ih =>
    have hlt : k < ps.length := hk
    rw [List.range_succ, List.foldl_append, ih (Nat.le_of_lt hlt)]
    simp only [List.foldl_cons, List.foldl_nil, LineOrderOptimizer.addPolygon]
    rw [List.take_succ, List.getD_eq_getElem?_getD, List.getElem?_eq_getElem hlt]
    simp

/-- The method `addPolygons` appends all lines in order and touches no other member. -/
theorem LineOrderOptimizer.addLines_eq (s : LineOrderOptimizer) (ps : Polygons) :
    s.addPolygons ps = { s with lines := s.lines ++ ps } := by
  unfold LineOrderOptimizer.addPolygons
  rw [LineOrderOptimizer.addLines_loop ps s ps.length (Nat.le_refl _), List.take_length]

/-- C8: the shape list is append-only. For both optimisers `addPolygon p` leaves the shape
list equal to the old list followed by `p`, and `addPolygons ps` leaves it equal to the old
list followed by the elements of `ps` in their order; the length grows by exactly `1`,
respectively by `ps.size()`. -/
theorem shape_list_append_only (s : PathOrderOptimizer) (l : LineOrderOptimizer)
    (p : Polygon) (ps : Polygons) :
    ((s.addPolygon p).polygons = s.polygons ++ [p] ∧
      (s.addPolygons ps).polygons = s.polygons ++ ps ∧
      (l.addPolygon p).lines = l.lines ++ [p] ∧
      (l.addPolygons ps).lines = l.lines ++ ps) ∧
    ((s.addPolygon p).polygons.length = s.polygons.length + 1 ∧
      (s.addPolygons ps).polygons.length = s.polygons.length + ps.length ∧
      (l.addPolygon p).lines.length = l.lines.length + 1 ∧
      (l.addPolygons ps).lines.length = l.lines.length + ps.length) := by
  rw [PathOrderOptimizer.addPolygons_eq, LineOrderOptimizer.addLines_eq]
  simp [PathOrderOptimizer.addPolygon, LineOrderOptimizer.addPolygon]

/-- One add call leaves both output arrays as they are. -/
theorem PathOrderOptimizer.applyCall_outputs (s : PathOrderOptimizer) (c : AddCall) :
    (s.applyCall c).polyStart = s.polyStart ∧ (s.applyCall c).polyOrder = s.polyOrder := by
  cases c with
  | one p => simp [PathOrderOptimizer.applyCall, PathOrderOptimizer.addPolygon]
  | many ps => simp [PathOrderOptimizer.applyCall, PathOrderOptimizer.addPolygons_eq]

/-- A sequence of add calls leaves both output arrays as they are. -/
theorem PathOrderOptimizer.applyCalls_outputs (calls : List AddCall) (s : PathOrderOptimizer) :
    (s.applyCalls calls).polyStart = s.polyStart ∧
    (s.applyCalls calls).polyOrder = s.polyOrder := by
  induction calls generalizing s with
  | nil => simp [PathOrderOptimizer.applyCalls]
  | cons c cs ih =>
    have h1 := PathOrderOptimizer.applyCall_outputs s c
    have h2 := ih (s.applyCall c)
    simp only [PathOrderOptimizer.applyCalls, List.foldl_cons] at h2 ⊢
    exact ⟨h2.1.trans h1.1, h2.2.trans h1.2⟩

/-- C9: in every state reached from the constructor (with or without the seam policy
argument) by a finite sequence of `addPolygon` and `addPolygons` calls, `polyStart` and
`polyOrder` are both empty. -/
theorem outputs_empty_before_optimize (startPoint : Point) (type : EZSeamType)
    (calls : List AddCall) :
    (((PathOrderOptimizer.construct startPoint type).applyCalls calls).polyStart = [] ∧
      ((PathOrderOptimizer.construct startPoint type).applyCalls calls).polyOrder = []) ∧
    (((PathOrderOptimizer.constructDefault startPoint).applyCalls calls).polyStart = [] ∧
      ((PathOrderOptimizer.constructDefault startPoint).applyCalls calls).polyOrder = []) := by
  have h := PathOrderOptimizer.applyCalls_outputs calls
    (PathOrderOptimizer.construct startPoint type)
  have h2 := PathOrderOptimizer.applyCalls_outputs calls
    (PathOrderOptimizer.constructDefault startPoint)
  exact ⟨⟨h.1, h.2⟩, ⟨h2.1, h2.2⟩⟩


/-! ## The SHORTEST seam -/

/-- Distance to a vertex of the scanned part is not changed by points appended after it. -/
theorem vertexDist2_append_left (prev : Point) (pre rest : List Point) (j : Nat)
    (hj : j < pre.length) :
    vertexDist2 prev (pre ++ rest) j = vertexDist2 prev pre j := by
  simp [vertexDist2, List.getElem?_append_left hj]

/-- Distance to the first point appended after the scanned part. -/
theorem vertexDist2_append_head (prev : Point) (pre : List Point) (p : Point)
    (rest : List Point) :
    vertexDist2 prev (pre ++ p :: rest) pre.length = vSize2 (p - prev) := by
  have h : (pre ++ p :: rest)[pre.length]? = some p := by
    rw [List.getElem?_append_right (Nat.le_refl _)]
    simp
  simp [vertexDist2, h]

/-- Invariant of the SHORTEST scan: when `best` is the first closest vertex of the part
`pre` already scanned, the scan of `rest` returns the first closest vertex of
`pre ++ rest`. -/
theorem closestScan_spec (prev : Point) (rest : List Point) :
    ∀ (pre : List Point) (best : Nat) (bd : Int),
      best < pre.length → bd = vertexDist2 prev pre best →
      (∀ j, j < pre.length → bd ≤ vertexDist2 prev pre j) →
      (∀ j, j < best → bd < vertexDist2 prev pre j) →
      closestScan prev rest pre.length best bd < (pre ++ rest).length ∧
      (∀ j, j < (pre ++ rest).length →
        vertexDist2 prev (pre ++ rest) (closestScan prev rest pre.length best bd)
          ≤ vertexDist2 prev (pre ++ rest) j) ∧
      (∀ j, j < closestScan prev rest pre.length best bd →
        vertexDist2 prev (pre ++ rest) (closestScan prev rest pre.length best bd)
          < vertexDist2 prev (pre ++ rest) j) := by
  induction rest with
  | nil =>
    intro pre best bd hb hbd hmin hfirst
    simp only [closestScan, List.append_nil]
    exact ⟨hb, fun j hj => hbd ▸ hmin j hj, fun j hj => hbd ▸ hfirst j hj⟩
  | cons p ps ih =>
    intro pre best bd hb hbd hmin hfirst
    have hlen : (pre ++ [p]).length = pre.length + 1 := by simp
    have happ : pre ++ p :: ps = (pre ++ [p]) ++ ps := by simp
    have hp : vertexDist2 prev (pre ++ [p]) pre.length = vSize2 (p - prev) :=
      vertexDist2_append_head prev pre p []
    have hold : ∀ j, j < pre.length →
        vertexDist2 prev (pre ++ [p]) j = vertexDist2 prev pre j :=
      fun j hj => vertexDist2_append_left prev pre [p] j hj
    unfold closestScan
    by_cases hlt : vSize2 (p - prev) < bd
    · rw [if_pos hlt, happ, ← hlen]
      apply ih (pre ++ [p]) pre.length (vSize2 (p - prev))
      · rw [hlen]; exact Nat.lt_succ_self _
      · exact hp.symm
      · intro j hj
        rw [hlen] at hj
        rcases Nat.lt_succ_iff_lt_or_eq.mp hj with h | h
        · rw [hold j h]; exact le_of_lt (lt_of_lt_of_le hlt (hmin j h))
        · rw [h, hp]
      · intro j hj
        rw [hold j hj]; exact lt_of_lt_of_le hlt (hmin j hj)
    · rw [if_neg hlt, happ, ← hlen]
      apply ih (pre ++ [p]) best bd
      · rw [hlen]; exact Nat.lt_succ_of_lt hb
      · rw [hold best hb]; exact hbd
      · intro j hj
        rw [hlen] at hj
        rcases Nat.lt_succ_iff_lt_or_eq.mp hj with h | h
        · rw [hold j h]; exact hmin j h
        · rw [h, hp]; exact not_lt.mp hlt
      · intro j hj
        rw [hold j (lt_trans hj hb)]; exact hfirst j hj

/-- The SHORTEST helper returns, for a polygon with at least one point, the lowest index
among the vertices at minimal distance from `prev`. -/
theorem closestIndex_spec (prev : Point) (poly : Polygon) (hne : poly ≠ []) :
    closestIndex prev poly < poly.length ∧
    (∀ j, j < poly.length →
      vertexDist2 prev poly (closestIndex prev poly) ≤ vertexDist2 prev poly j) ∧
    (∀ j, j < closestIndex prev poly →
      vertexDist2 prev poly (closestIndex prev poly) < vertexDist2 prev poly j) := by
  cases poly with
  | nil => exact absurd rfl hne
  | cons p ps =>
    have h := closestScan_spec prev ps [p] 0 (vSize2 (p - prev)) (by simp)
      (by simp [vertexDist2])
      (by
        intro j hj
        have : j = 0 := by simpa using hj
        subst this
        simp [vertexDist2])
      (by intro j hj; exact absurd hj (Nat.not_lt_zero j))
    simpa [closestIndex] using h

/-- With exactly one polygon, `optimize()` records the candidate start vertex computed
from the start point with the first draw. -/
theorem PathOrderOptimizer.optimize_single (s : PathOrderOptimizer) (rng : Nat → Nat)
    (poly : Polygon) (h : s.polygons = [poly]) :
    (s.optimize rng).polyStart = [Int.ofNat (s.getPolyStart (rng 0) s.startPoint 0)] ∧
    (s.optimize rng).polyOrder = [0] := by
  simp [PathOrderOptimizer.optimize, h, PathOrderOptimizer.optimizeLoop,
    PathOrderOptimizer.candidates, nearest, nearestScan, List.range_succ]

/-- C3: for a `PathOrderOptimizer` with seam policy SHORTEST holding exactly one polygon
with at least one point, after `optimize()` the start index `polyStart[0]` is the index of
a vertex at minimal distance from `startPoint` among all vertices of the polygon, and every
vertex of lower index is strictly farther (it is the lowest index at minimal distance). -/
theorem shortest_single_polygon (s : PathOrderOptimizer) (rng : Nat → Nat) (poly : Polygon)
    (htype : s.type = EZSeamType.SHORTEST) (hpolys : s.polygons = [poly])
    (hne : poly ≠ []) :
    ∃ k : Nat, (s.optimize rng).polyStart = [Int.ofNat k] ∧ k < poly.length ∧
      (∀ j, j < poly.length →
        vertexDist2 s.startPoint poly k ≤ vertexDist2 s.startPoint poly j) ∧
      (∀ j, j < k → vertexDist2 s.startPoint poly k < vertexDist2 s.startPoint poly j) := by
  refine ⟨closestIndex s.startPoint poly, ?_, closestIndex_spec s.startPoint poly hne⟩
  rw [(PathOrderOptimizer.optimize_single s rng poly hpolys).1]
  simp [PathOrderOptimizer.getPolyStart, htype, PathOrderOptimizer.getClosestPointInPolygon,
    hpolys]


/-! ## Greedy selection -/

/-- The scan returns its initial best element or an element of the scanned list. -/
theorem nearestScan_mem {α : Type} (key : α → Int) (xs : List α) :
    ∀ best : α, nearestScan key xs best ∈ best :: xs := by
  induction xs with
  | nil => intro best; simp [nearestScan]
  | cons x xs ih =>
    intro best
    unfold nearestScan
    split
    · have := ih x
      simp only [List.mem_cons] at this ⊢
      rcases this with h | h
      · exact Or.inr (Or.inl h)
      · exact Or.inr (Or.inr h)
    · have := ih best
      simp only [List.mem_cons] at this ⊢
      rcases this with h | h
      · exact Or.inl h
      · exact Or.inr (Or.inr h)

/-- The selected element belongs to the list. -/
theorem nearest_mem {α : Type} (key : α → Int) (l : List α) (x : α)
    (h : nearest key l = some x) : x ∈ l := by
  cases l with
  | nil => simp [nearest] at h
  | cons a as =>
    simp only [nearest, Option.some.injEq] at h
    rw [← h]
    exact nearestScan_mem key as a

/-- Nothing is selected only from the empty list. -/
theorem nearest_eq_none {α : Type} (key : α → Int) (l : List α)
    (h : nearest key l = none) : l = [] := by
  cases l with
  | nil => rfl
  | cons a as => simp [nearest] at h

/-- The candidates list the unvisited shapes, in order. -/
theorem PathOrderOptimizer.candidates_fst (s : PathOrderOptimizer) (rng : Nat → Nat)
    (cur : Point) (unvisited : List Nat) :
    ∀ ctr, (s.candidates rng cur ctr unvisited).map Prod.fst = unvisited := by
  induction unvisited with
  | nil => intro ctr; simp [PathOrderOptimizer.candidates]
  | cons i rest ih => intro ctr; simp [PathOrderOptimizer.candidates, ih]

/-- Every candidate pairs an unvisited shape with its seam-policy start vertex for some
draw. -/
theorem PathOrderOptimizer.candidates_mem (s : PathOrderOptimizer) (rng : Nat → Nat)
    (cur : Point) (unvisited : List Nat) (c : Nat × Nat) :
    ∀ ctr, c ∈ s.candidates rng cur ctr unvisited →
      c.1 ∈ unvisited ∧ ∃ r, c.2 = s.getPolyStart r cur c.1 := by
  induction unvisited with
  | nil => intro ctr h; simp [PathOrderOptimizer.candidates] at h
  | cons i rest ih =>
    intro ctr h
    simp only [PathOrderOptimizer.candidates, List.mem_cons] at h
    rcases h with h | h
    · subst h
      exact ⟨List.mem_cons_self _ _, rng ctr, rfl⟩
    · have := ih (ctr + 1) h
      exact ⟨List.mem_cons_of_mem _ this.1, this.2⟩

/-- The greedy loop of `PathOrderOptimizer::optimize()`, given fuel for every unvisited
shape, returns the order built so far followed by the unvisited shapes in some order. -/
theorem PathOrderOptimizer.optimizeLoop_order (s : PathOrderOptimizer) (rng : Nat → Nat) :
    ∀ (fuel : Nat) (cur : Point) (ctr : Nat) (unvisited starts order : List Nat),
      unvisited.length ≤ fuel →
      (s.optimizeLoop rng fuel cur ctr unvisited starts order).2.Perm (order ++ unvisited) := by
  intro fuel
  induction fuel with
  | zero =>
    intro cur ctr unvisited starts order h
    have : unvisited = [] := List.eq_nil_of_length_eq_zero (Nat.le_zero.mp h)
    subst this
    simp [PathOrderOptimizer.optimizeLoop]
  | succ fuel ih =>
    intro cur ctr unvisited starts order h
    unfold PathOrderOptimizer.optimizeLoop
    split
    next hnone =>
      have h1 := nearest_eq_none _ _ hnone
      have h2 := s.candidates_fst rng cur unvisited ctr
      rw [h1] at h2
      simp only [List.map_nil] at h2
      rw [← h2]
      simp
    next c hsome =>
      have hmem := (s.candidates_mem rng cur unvisited c ctr (nearest_mem _ _ _ hsome)).1
      have hlen : (unvisited.erase c.1).length ≤ fuel := by
        rw [List.length_erase_of_mem hmem]
        omega
      refine (ih _ _ (unvisited.erase c.1) _ (order ++ [c.1]) hlen).trans ?_
      rw [List.append_assoc]
      exact List.Perm.append_left order (List.perm_cons_erase hmem).symm

/-- A permutation of `0, ..., n-1` has length `n` and holds every index below `n` exactly
once. -/
theorem perm_range_facts (l : List Int) (n : Nat)
    (h : l.Perm ((List.range n).map Int.ofNat)) :
    l.length = n ∧ ∀ i : Nat, i < n → l.count (Int.ofNat i) = 1 := by
  refine ⟨by simpa using h.length_eq, ?_⟩
  intro i hi
  rw [h.count_eq]
  apply List.count_eq_one_of_mem
  · exact (List.nodup_range n).map Int.ofNat_injective
  · exact List.mem_map.mpr ⟨i, List.mem_range.mpr hi, rfl⟩


/-! ## Clustering -/

/-- Indices of the closed clusters: closing appends the indices of the current cluster. -/
theorem closeCluster_indices (done : List (List (Nat × Bool))) (current : List (Nat × Bool)) :
    ((closeCluster done current).map (fun c => c.map Prod.fst)).flatten
      = (done.map (fun c => c.map Prod.fst)).flatten ++ current.map Prod.fst := by
  cases current with
  | nil => simp [closeCluster]
  | cons m ms => simp [closeCluster]

/-- The near endpoint is an end of the line, with its squared distance. -/
theorem nearEnd_spec (t : Point) (line : Polygon) (b : Bool) (d : Int)
    (h : nearEnd t line = some (b, d)) :
    ∃ q, endpoint line b = some q ∧ d = vSize2 (q - t) := by
  unfold nearEnd at h
  split at h
  next a z ha hz =>
    split at h
    · simp only [Option.some.injEq, Prod.mk.injEq] at h
      refine ⟨z, ?_, h.2.symm⟩
      rw [← h.1]
      simpa [endpoint] using hz
    · simp only [Option.some.injEq, Prod.mk.injEq] at h
      refine ⟨a, ?_, h.2.symm⟩
      rw [← h.1]
      simpa [endpoint] using ha
  next => exact absurd h (by simp)

/-- A neighbour candidate is a remaining line whose near endpoint is within the grid size
of the trailing endpoint. -/
theorem LineOrderOptimizer.neighbourCandidates_mem (s : LineOrderOptimizer) (t : Point)
    (remaining : List Nat) (c : Nat × Bool × Int)
    (h : c ∈ s.neighbourCandidates t remaining) :
    c.1 ∈ remaining ∧ ∃ q, s.entry (c.1, c.2.1) = some q ∧
      vSize2 (q - t) ≤ (s.cluster_grid_size : Int) * (s.cluster_grid_size : Int) := by
  induction remaining with
  | nil => simp [LineOrderOptimizer.neighbourCandidates] at h
  | cons i rest ih =>
    unfold LineOrderOptimizer.neighbourCandidates at h
    split at h
    next b d hne =>
      split at h
      next hle =>
        simp only [List.mem_cons] at h
        rcases h with h | h
        · subst h
          obtain ⟨q, hq, hd⟩ := nearEnd_spec t _ b d hne
          refine ⟨List.mem_cons_self _ _, q, hq, ?_⟩
          rw [← hd]; exact hle
        · exact ⟨List.mem_cons_of_mem _ (ih h).1, (ih h).2⟩
      next => exact ⟨List.mem_cons_of_mem _ (ih h).1, (ih h).2⟩
    next => exact ⟨List.mem_cons_of_mem _ (ih h).1, (ih h).2⟩

/-- A neighbour found is a remaining line whose entry end is within the grid size of the
trailing endpoint. -/
theorem LineOrderOptimizer.findNeighbour_spec (s : LineOrderOptimizer)
    (trailing : Option Point) (remaining : List Nat) (m : Nat × Bool)
    (h : s.findNeighbour trailing remaining = some m) :
    m.1 ∈ remaining ∧ ∃ t q, trailing = some t ∧ s.entry m = some q ∧
      vSize2 (q - t) ≤ (s.cluster_grid_size : Int) * (s.cluster_grid_size : Int) := by
  unfold LineOrderOptimizer.findNeighbour at h
  split at h
  next => exact absurd h (by simp)
  next t =>
    split at h
    next => exact absurd h (by simp)
    next c hc =>
      simp only [Option.some.injEq] at h
      have := s.neighbourCandidates_mem t remaining c (nearest_mem _ _ _ hc)
      rw [← h]
      obtain ⟨h1, q, hq, hd⟩ := this
      exact ⟨h1, t, q, rfl, hq, hd⟩

/-- The clustering loop, given fuel for every remaining line, returns clusters whose
indices are those of the closed clusters, the current cluster and the remaining lines. -/
theorem LineOrderOptimizer.clusterLoop_indices (s : LineOrderOptimizer) :
    ∀ (fuel : Nat) (remaining : List Nat) (current : List (Nat × Bool))
      (done : List (List (Nat × Bool))),
      remaining.length ≤ fuel →
      ((s.clusterLoop fuel remaining current done).map (fun c => c.map Prod.fst)).flatten.Perm
        ((done.map (fun c => c.map Prod.fst)).flatten ++ current.map Prod.fst ++ remaining) := by
  intro fuel
  induction fuel with
  | zero =>
    intro remaining current done h
    have : remaining = [] := List.eq_nil_of_length_eq_zero (Nat.le_zero.mp h)
    subst this
    simp [LineOrderOptimizer.clusterLoop, closeCluster_indices]
  | succ fuel ih =>
    intro remaining current done h
    unfold LineOrderOptimizer.clusterLoop
    split
    next => simp [closeCluster_indices]
    next seed rest =>
      split
      next m hm =>
        have hmem := (s.findNeighbour_spec _ _ m hm).1
        have hlen : ((seed :: rest).erase m.1).length ≤ fuel := by
          rw [List.length_erase_of_mem hmem]
          simp only [List.length_cons] at h ⊢
          omega
        refine (ih _ (current ++ [m]) done hlen).trans ?_
        simp only [List.map_append, List.map_cons, List.map_nil, List.append_assoc]
        exact List.Perm.append_left _ (List.Perm.append_left _
          (List.perm_cons_erase hmem).symm)
      next =>
        have hlen : rest.length ≤ fuel := by
          simp only [List.length_cons] at h
          omega
        refine (ih rest [(seed, false)] (closeCluster done current) hlen).trans ?_
        rw [closeCluster_indices]
        simp

/-- The trailing endpoint of a cluster is the exit end of its last line. -/
theorem LineOrderOptimizer.trailing_eq_some (s : LineOrderOptimizer)
    (current : List (Nat × Bool)) (t : Point) (h : s.trailing current = some t) :
    ∃ a, current.getLast? = some a ∧ s.exit a = some t := by
  unfold LineOrderOptimizer.trailing at h
  split at h
  next => exact absurd h (by simp)
  next a ha => exact ⟨a, ha, h⟩

/-- Closing keeps every cluster a non-empty connected chain. -/
theorem LineOrderOptimizer.closeCluster_chains (s : LineOrderOptimizer)
    (done : List (List (Nat × Bool))) (current : List (Nat × Bool))
    (hd : ∀ c ∈ done, c ≠ [] ∧ c.Chain' s.Connected) (hc : current.Chain' s.Connected) :
    ∀ c ∈ closeCluster done current, c ≠ [] ∧ c.Chain' s.Connected := by
  intro c hmem
  unfold closeCluster at hmem
  split at hmem
  next => exact hd c hmem
  next hne =>
    simp only [List.mem_append, List.mem_singleton] at hmem
    rcases hmem with h | h
    · exact hd c h
    · subst h
      refine ⟨?_, hc⟩
      intro h0
      apply hne
      simp [h0]

/-- The clustering loop returns non-empty clusters in which consecutive lines are
connected, when that holds of the closed clusters and the current cluster. -/
theorem LineOrderOptimizer.clusterLoop_chains (s : LineOrderOptimizer) :
    ∀ (fuel : Nat) (remaining : List Nat) (current : List (Nat × Bool))
      (done : List (List (Nat × Bool))),
      (∀ c ∈ done, c ≠ [] ∧ c.Chain' s.Connected) → current.Chain' s.Connected →
      ∀ c ∈ s.clusterLoop fuel remaining current done, c ≠ [] ∧ c.Chain' s.Connected := by
  intro fuel
  induction fuel with
  | zero =>
    intro remaining current done hd hc
    simpa [LineOrderOptimizer.clusterLoop] using s.closeCluster_chains done current hd hc
  | succ fuel ih =>
    intro remaining current done hd hc
    unfold LineOrderOptimizer.clusterLoop
    split
    next => exact s.closeCluster_chains done current hd hc
    next seed rest =>
      split
      next m hm =>
        apply ih _ (current ++ [m]) done hd
        obtain ⟨_, t, q, ht, hq, hdist⟩ := s.findNeighbour_spec _ _ m hm
        obtain ⟨a, ha, hexit⟩ := s.trailing_eq_some current t ht
        rw [List.chain'_append]
        refine ⟨hc, List.chain'_singleton m, ?_⟩
        intro x hx y hy
        rw [ha] at hx
        simp only [Option.mem_def, Option.some.injEq, List.head?_cons] at hx hy
        subst hx; subst hy
        exact ⟨t, q, hexit, hq, hdist⟩
      next =>
        exact ih rest [(seed, false)] (closeCluster done current)
          (s.closeCluster_chains done current hd hc) (List.chain'_singleton _)

/-- C10: the clusters returned by `cluster()` partition the line indices (their
concatenation holds every index of `[0, n)` exactly once, and no cluster is empty), and
every cluster is the index list of a chain in which, for every pair of consecutive lines,
the connecting endpoints are at distance at most `cluster_grid_size`. -/
theorem cluster_partition_connected (s : LineOrderOptimizer) :
    s.cluster.flatten.Perm (List.range s.lines.length) ∧
    (∀ i, i < s.lines.length → s.cluster.flatten.count i = 1) ∧
    (∀ c ∈ s.cluster, c ≠ [] ∧
      ∃ chain, chain ∈ s.clusterChains ∧ chain.map Prod.fst = c ∧
        chain.Chain' s.Connected) := by
  have hperm : s.cluster.flatten.Perm (List.range s.lines.length) := by
    have := s.clusterLoop_indices s.lines.length (List.range s.lines.length) [] []
      (by simp)
    simpa [LineOrderOptimizer.cluster, LineOrderOptimizer.clusterChains] using this
  refine ⟨hperm, ?_, ?_⟩
  · intro i hi
    rw [hperm.count_eq]
    exact List.count_eq_one_of_mem (List.nodup_range _) (List.mem_range.mpr hi)
  · intro c hc
    simp only [LineOrderOptimizer.cluster, List.mem_map] at hc
    obtain ⟨chain, hmem, hmap⟩ := hc
    have := s.clusterLoop_chains s.lines.length (List.range s.lines.length) [] []
      (by simp) List.chain'_nil chain hmem
    refine ⟨?_, chain, hmem, hmap, this.2⟩
    intro h0
    rw [h0] at hmap
    exact this.1 (List.map_eq_nil_iff.mp hmap)


/-! ## The visit order is a permutation -/

/-- Every Stage B candidate enters an unvisited cluster. -/
theorem LineOrderOptimizer.clusterCandidates_mem (s : LineOrderOptimizer)
    (clusters : List (List (Nat × Bool))) (cur : Point) (unvisited : List Nat)
    (c : Nat × Bool × Int) (h : c ∈ s.clusterCandidates clusters cur unvisited) :
    c.1 ∈ unvisited := by
  induction unvisited with
  | nil => simp [LineOrderOptimizer.clusterCandidates] at h
  | cons k rest ih =>
    simp only [LineOrderOptimizer.clusterCandidates, List.mem_cons] at h
    rcases h with h | h | h
    · subst h; exact List.mem_cons_self _ _
    · subst h; exact List.mem_cons_self _ _
    · exact List.mem_cons_of_mem _ (ih h)

/-- There are Stage B candidates as long as a cluster is unvisited. -/
theorem LineOrderOptimizer.clusterCandidates_eq_nil (s : LineOrderOptimizer)
    (clusters : List (List (Nat × Bool))) (cur : Point) (unvisited : List Nat)
    (h : s.clusterCandidates clusters cur unvisited = []) : unvisited = [] := by
  cases unvisited with
  | nil => rfl
  | cons k rest => simp [LineOrderOptimizer.clusterCandidates] at h

/-- Traversing a chain from either extreme visits the same lines. -/
theorem orient_indices (c : List (Nat × Bool)) (fromLast : Bool) :
    ((orient c fromLast).map Prod.fst).Perm (c.map Prod.fst) := by
  cases fromLast with
  | false => simp [orient]
  | true =>
    have h : (c.reverse.map (fun m => (m.1, !m.2))).map Prod.fst = (c.map Prod.fst).reverse := by
      simp [List.map_reverse, Function.comp_def]
    simp only [orient, if_true, h]
    exact List.reverse_perm _

/-- The greedy loop of `LineOrderOptimizer::optimize()`, given fuel for every unvisited
cluster, returns the order built so far followed by the lines of the unvisited clusters in
some order. -/
theorem LineOrderOptimizer.lineLoop_order (s : LineOrderOptimizer)
    (clusters : List (List (Nat × Bool))) :
    ∀ (fuel : Nat) (cur : Point) (unvisited starts order : List Nat),
      unvisited.length ≤ fuel →
      (s.optimizeLoop clusters fuel cur unvisited starts order).2.Perm
        (order ++ unvisited.flatMap (fun k => (clusters.getD k []).map Prod.fst)) := by
  intro fuel
  induction fuel with
  | zero =>
    intro cur unvisited starts order h
    have : unvisited = [] := List.eq_nil_of_length_eq_zero (Nat.le_zero.mp h)
    subst this
    simp [LineOrderOptimizer.optimizeLoop]
  | succ fuel ih =>
    intro cur unvisited starts order h
    unfold LineOrderOptimizer.optimizeLoop
    split
    next hnone =>
      have h1 := s.clusterCandidates_eq_nil clusters cur unvisited (nearest_eq_none _ _ hnone)
      subst h1
      simp
    next c hsome =>
      have hmem := s.clusterCandidates_mem clusters cur unvisited c (nearest_mem _ _ _ hsome)
      have hlen : (unvisited.erase c.1).length ≤ fuel := by
        rw [List.length_erase_of_mem hmem]
        omega
      refine (ih _ (unvisited.erase c.1) _ _ hlen).trans ?_
      rw [List.append_assoc]
      apply List.Perm.append_left
      have hp := List.Perm.flatMap_right (fun k => (clusters.getD k []).map Prod.fst)
        (List.perm_cons_erase hmem)
      refine List.Perm.trans ?_ hp.symm
      rw [List.flatMap_cons]
      exact List.Perm.append_right _ (orient_indices _ _)

/-- Reading a list through its indices gives the list back. -/
theorem map_range_getD {α β : Type} (l : List α) (d : α) (g : α → β) :
    (List.range l.length).map (fun k => g (l.getD k d)) = l.map g := by
  apply List.ext_getElem
  · simp
  · intro i h1 h2
    have hi : i < l.length := by simpa using h2
    simp [List.getD_eq_getElem?_getD, List.getElem?_eq_getElem hi]

/-- The visit order of the path optimiser is a permutation of the shape indices. -/
theorem PathOrderOptimizer.optimize_order_perm (s : PathOrderOptimizer) (rng : Nat → Nat) :
    (s.optimize rng).polyOrder.Perm ((List.range s.polygons.length).map Int.ofNat) := by
  have h := s.optimizeLoop_order rng s.polygons.length s.startPoint 0
    (List.range s.polygons.length) (List.replicate s.polygons.length 0) [] (by simp)
  simp only [List.nil_append] at h
  exact h.map Int.ofNat

/-- The visit order of the line optimiser is a permutation of the line indices. -/
theorem LineOrderOptimizer.line_order_perm (s : LineOrderOptimizer) :
    s.optimize.polyOrder.Perm ((List.range s.lines.length).map Int.ofNat) := by
  have h := s.lineLoop_order s.clusterChains s.clusterChains.length s.startPoint
    (List.range s.clusterChains.length) (List.replicate s.lines.length 0) [] (by simp)
  have h2 := s.clusterLoop_indices s.lines.length (List.range s.lines.length) [] []
    (by simp)
  simp only [List.nil_append, List.flatMap, map_range_getD] at h
  simp only [List.map_nil, List.flatten_nil, List.nil_append] at h2
  exact (h.trans h2).map Int.ofNat

/-- C1: after `optimize()`, for the path optimiser (every start point, seam policy, random
source and list of `n` polygons) and for the line optimiser (every start point, grid size
and list of `n` lines), `polyOrder` is a permutation of `0, ..., n-1`: it has length `n`
and contains every index of `[0, n)` exactly once. -/
theorem visit_order_permutation (s : PathOrderOptimizer) (rng : Nat → Nat)
    (l : LineOrderOptimizer) :
    ((s.optimize rng).polyOrder.Perm ((List.range s.polygons.length).map Int.ofNat) ∧
      (s.optimize rng).polyOrder.length = s.polygons.length ∧
      ∀ i : Nat, i < s.polygons.length → (s.optimize rng).polyOrder.count (Int.ofNat i) = 1) ∧
    (l.optimize.polyOrder.Perm ((List.range l.lines.length).map Int.ofNat) ∧
      l.optimize.polyOrder.length = l.lines.length ∧
      ∀ i : Nat, i < l.lines.length → l.optimize.polyOrder.count (Int.ofNat i) = 1) :=
  ⟨⟨s.optimize_order_perm rng, perm_range_facts _ _ (s.optimize_order_perm rng)⟩,
    ⟨l.line_order_perm, perm_range_facts _ _ l.line_order_perm⟩⟩

/-- C5: for a `PathOrderOptimizer` and a `LineOrderOptimizer` holding no shape,
`optimize()` returns and leaves `polyOrder` and `polyStart` empty. -/
theorem optimize_empty (s : PathOrderOptimizer) (rng : Nat → Nat) (l : LineOrderOptimizer)
    (hs : s.polygons = []) (hl : l.lines = []) :
    ((s.optimize rng).polyOrder = [] ∧ (s.optimize rng).polyStart = []) ∧
    (l.optimize.polyOrder = [] ∧ l.optimize.polyStart = []) := by
  simp [PathOrderOptimizer.optimize, PathOrderOptimizer.optimizeLoop,
    LineOrderOptimizer.optimize, LineOrderOptimizer.optimizeLoop,
    LineOrderOptimizer.clusterChains, LineOrderOptimizer.clusterLoop, closeCluster, hs, hl]


/-! ## Start indices -/

/-- The scan for the highest `Y` returns an index below the number of points seen. -/
theorem farthestScan_lt (ps : List Point) :
    ∀ (i best : Nat) (bestY : Int), best < i → farthestScan ps i best bestY < i + ps.length := by
  induction ps with
  | nil => intro i best bestY h; simpa [farthestScan] using h
  | cons p ps ih =>
    intro i best bestY h
    unfold farthestScan
    split
    · have := ih (i + 1) i p.Y (Nat.lt_succ_self i)
      simp only [List.length_cons]; omega
    · have := ih (i + 1) best bestY (Nat.lt_succ_of_lt h)
      simp only [List.length_cons]; omega

/-- The SHORTEST helper returns a valid start index. -/
theorem closestIndex_valid (prev : Point) (poly : Polygon) :
    ValidStart poly (closestIndex prev poly) :=
  ⟨fun hne => (closestIndex_spec prev poly hne).1, fun h => by subst h; rfl⟩

/-- The farthest-point helper returns a valid start index. -/
theorem farthestIndex_valid (poly : Polygon) : ValidStart poly (farthestIndex poly) := by
  cases poly with
  | nil => exact ⟨fun h => absurd rfl h, fun _ => rfl⟩
  | cons p ps =>
    refine ⟨fun _ => ?_, fun h => absurd h (by simp)⟩
    have := farthestScan_lt ps 1 0 p.Y Nat.zero_lt_one
    simp only [farthestIndex, List.length_cons]; omega

/-- The random helper returns a valid start index, whatever the draw. -/
theorem randomIndex_valid (r : Nat) (poly : Polygon) : ValidStart poly (randomIndex r poly) := by
  unfold randomIndex
  split
  next h =>
    refine ⟨fun hne => ?_, fun _ => rfl⟩
    exact List.length_pos.mpr hne
  next h =>
    refine ⟨fun _ => Nat.mod_lt _ (by omega), fun h0 => ?_⟩
    subst h0
    simp at h

/-- The candidate start vertex of every seam policy is a valid start index. -/
theorem PathOrderOptimizer.getPolyStart_valid (s : PathOrderOptimizer) (r : Nat)
    (prev : Point) (i : Nat) :
    ValidStart (s.polygons.getD i []) (s.getPolyStart r prev i) := by
  unfold PathOrderOptimizer.getPolyStart
  split
  · exact closestIndex_valid _ _
  · exact randomIndex_valid _ _
  · exact farthestIndex_valid _

/-- Either end of a line is a valid start index. -/
theorem endIndex_valid (line : Polygon) (back : Bool) : ValidStart line (endIndex line back) := by
  unfold endIndex
  split
  · refine ⟨fun hne => ?_, fun h => by subst h; rfl⟩
    have := List.length_pos.mpr hne
    omega
  · exact ⟨fun hne => List.length_pos.mpr hne, fun _ => rfl⟩

/-- The initial start index array, all zero, is valid. -/
theorem allValid_replicate (polys : List Polygon) :
    AllValid polys (List.replicate polys.length 0) := by
  refine ⟨by simp, ?_⟩
  intro i v h
  rw [List.getElem?_replicate] at h
  split at h
  · simp only [Option.some.injEq] at h
    subst h
    exact ⟨fun hne => List.length_pos.mpr hne, fun _ => rfl⟩
  · exact absurd h (by simp)

/-- Writing a valid start index keeps the array valid. -/
theorem allValid_set (polys : List Polygon) (starts : List Nat) (k v : Nat)
    (h : AllValid polys starts) (hv : ValidStart (polys.getD k []) v) :
    AllValid polys (starts.set k v) := by
  refine ⟨by rw [List.length_set]; exact h.1, ?_⟩
  intro i w hw
  rw [List.getElem?_set] at hw
  split at hw
  next hki =>
    split at hw
    · simp only [Option.some.injEq] at hw
      subst hki; subst hw
      exact hv
    · exact absurd hw (by simp)
  next => exact h.2 i w hw

/-- The greedy loop of the path optimiser keeps the start index array valid. -/
theorem PathOrderOptimizer.optimizeLoop_valid (s : PathOrderOptimizer) (rng : Nat → Nat) :
    ∀ (fuel : Nat) (cur : Point) (ctr : Nat) (unvisited starts order : List Nat),
      AllValid s.polygons starts →
      AllValid s.polygons (s.optimizeLoop rng fuel cur ctr unvisited starts order).1 := by
  intro fuel
  induction fuel with
  | zero => intro cur ctr unvisited starts order h; simpa [PathOrderOptimizer.optimizeLoop] using h
  | succ fuel ih =>
    intro cur ctr unvisited starts order h
    unfold PathOrderOptimizer.optimizeLoop
    split
    next => exact h
    next c hsome =>
      apply ih
      obtain ⟨_, r, hr⟩ := s.candidates_mem rng cur unvisited c ctr (nearest_mem _ _ _ hsome)
      apply allValid_set _ _ _ _ h
      rw [hr]
      exact s.getPolyStart_valid r cur c.1

/-- Recording the entry ends of a chain keeps the start index array valid. -/
theorem LineOrderOptimizer.recordStarts_valid (s : LineOrderOptimizer)
    (chain : List (Nat × Bool)) :
    ∀ starts, AllValid s.lines starts → AllValid s.lines (s.recordStarts chain starts) := by
  induction chain with
  | nil => intro starts h; simpa [LineOrderOptimizer.recordStarts] using h
  | cons m ms ih =>
    intro starts h
    simp only [LineOrderOptimizer.recordStarts, List.foldl_cons]
    exact ih _ (allValid_set _ _ _ _ h (endIndex_valid _ _))

/-- The greedy loop of the line optimiser keeps the start index array valid. -/
theorem LineOrderOptimizer.lineLoop_valid (s : LineOrderOptimizer)
    (clusters : List (List (Nat × Bool))) :
    ∀ (fuel : Nat) (cur : Point) (unvisited starts order : List Nat),
      AllValid s.lines starts →
      AllValid s.lines (s.optimizeLoop clusters fuel cur unvisited starts order).1 := by
  intro fuel
  induction fuel with
  | zero => intro cur unvisited starts order h; simpa [LineOrderOptimizer.optimizeLoop] using h
  | succ fuel ih =>
    intro cur unvisited starts order h
    unfold LineOrderOptimizer.optimizeLoop
    split
    next => exact h
    next c hsome => exact ih _ _ _ _ (s.recordStarts_valid _ _ h)

/-- A valid array of natural start indices, read as the `int` array `polyStart`, has one
entry per shape, each a vertex index of its shape when the shape has points and `0` when
the shape has at most one point. -/
theorem allValid_int (polys : List Polygon) (starts : List Nat) (h : AllValid polys starts) :
    (starts.map Int.ofNat).length = polys.length ∧
    ∀ i, i < polys.length → ∃ v : Int, (starts.map Int.ofNat)[i]? = some v ∧
      ((polys.getD i []) ≠ [] → 0 ≤ v ∧ v < ((polys.getD i []).length : Int)) ∧
      ((polys.getD i []).length ≤ 1 → v = 0) := by
  refine ⟨by rw [List.length_map]; exact h.1, ?_⟩
  intro i hi
  have hi2 : i < starts.length := by rw [h.1]; exact hi
  have hget : starts[i]? = some starts[i] := List.getElem?_eq_getElem hi2
  have hv := h.2 i _ hget
  refine ⟨Int.ofNat starts[i], by simp [hget], ?_, ?_⟩
  · intro hne
    exact ⟨Int.ofNat_nonneg _, Int.ofNat_lt.mpr (hv.1 hne)⟩
  · intro hle
    by_cases h0 : polys.getD i [] = []
    · rw [hv.2 h0]; rfl
    · have := hv.1 h0
      have : starts[i] = 0 := by omega
      rw [this]; rfl

/-- C2 (as stated): with one polygon without points, `optimize()` sets `polyStart = [0]`,
and `0 <= polyStart[0] < 0` fails: not every shape index has a start index below the
number of points of its shape. -/
theorem start_index_not_always_vertex :
    (degenerateInput.optimize (fun _ => 0)).polyStart = [0] ∧
    ¬ (∀ i, i < degenerateInput.polygons.length →
        ∃ v : Int, (degenerateInput.optimize (fun _ => 0)).polyStart[i]? = some v ∧
          0 ≤ v ∧ v < ((degenerateInput.polygons.getD i []).length : Int)) := by
  have e : (degenerateInput.optimize (fun _ => 0)).polyStart = [0] := by decide
  refine ⟨e, ?_⟩
  intro h
  obtain ⟨v, _, _, h3⟩ := h 0 (by decide)
  have h4 : ((degenerateInput.polygons.getD 0 []).length : Int) = 0 := by decide
  rw [h4] at h3
  omega

/-- C2 (amended): after `optimize()`, for both optimisers, `polyStart` has one entry per
input shape; for every shape with at least one point the entry `v` satisfies
`0 <= v < number of points of the shape`, and for every shape with 0 or 1 points it
is `0`. -/
theorem start_index_valid (s : PathOrderOptimizer) (rng : Nat → Nat)
    (l : LineOrderOptimizer) :
    ((s.optimize rng).polyStart.length = s.polygons.length ∧
      ∀ i, i < s.polygons.length → ∃ v : Int, (s.optimize rng).polyStart[i]? = some v ∧
        ((s.polygons.getD i []) ≠ [] → 0 ≤ v ∧ v < ((s.polygons.getD i []).length : Int)) ∧
        ((s.polygons.getD i []).length ≤ 1 → v = 0)) ∧
    (l.optimize.polyStart.length = l.lines.length ∧
      ∀ i, i < l.lines.length → ∃ v : Int, l.optimize.polyStart[i]? = some v ∧
        ((l.lines.getD i []) ≠ [] → 0 ≤ v ∧ v < ((l.lines.getD i []).length : Int)) ∧
        ((l.lines.getD i []).length ≤ 1 → v = 0)) :=
  ⟨allValid_int _ _ (s.optimizeLoop_valid rng _ _ _ _ _ _ (allValid_replicate _)),
    allValid_int _ _ (l.lineLoop_valid _ _ _ _ _ _ (allValid_replicate _))⟩


/-! ## Travel distance: greedy legs and the total -/

/-- Difference of two points, componentwise. -/
theorem Point.sub_def (p q : Point) : p - q = ⟨p.X - q.X, p.Y - q.Y⟩ := rfl

/-- The squared length is non-negative. -/
theorem vSize2_nonneg (p : Point) : 0 ≤ vSize2 p :=
  add_nonneg (mul_self_nonneg _) (mul_self_nonneg _)

/-- There is a Euclidean distance function: the square root of the squared length. -/
theorem isEuclidean_exists : ∃ d : Point → Point → ℝ, IsEuclidean d := by
  refine ⟨fun p q => Real.sqrt ((vSize2 (q - p) : Int) : ℝ), fun p q => ?_⟩
  refine ⟨Real.sqrt_nonneg _, Real.mul_self_sqrt ?_⟩
  exact_mod_cast vSize2_nonneg (q - p)

/-- A Euclidean distance function takes the value `k` between two points whose squared
distance is `k * k`, for `k` non-negative. -/
theorem IsEuclidean.eq_of_sq (d : Point → Point → ℝ) (h : IsEuclidean d) (p q : Point)
    (k : ℝ) (hk : 0 ≤ k) (hkk : ((vSize2 (q - p) : Int) : ℝ) = k * k) : d p q = k := by
  have h1 := (h p q).1
  have h2 := (h p q).2
  rw [hkk] at h2
  exact (mul_self_inj h1 hk).mp h2

/-- C4 (as stated): for three single-point shapes at `x = -3, 2, 5` on a line and the start
point at the origin, the order produced by `optimize()` travels `2 + 3 + 8 = 13` while the
input order travels `3 + 5 + 3 = 11`, for the Euclidean distance: the produced total is
not less than or equal to the total of the input order. -/
theorem greedy_total_exceeds_input_order :
    (∃ d : Point → Point → ℝ, IsEuclidean d) ∧
    ∀ d : Point → Point → ℝ, IsEuclidean d →
      travel d collinearInput.startPoint
        (route collinearInput.polygons (collinearInput.optimize (fun _ => 0)).polyStart
          (collinearInput.optimize (fun _ => 0)).polyOrder) = 13 ∧
      travel d collinearInput.startPoint
        (collinearInput.inputOrderRoute (fun _ => 0) collinearInput.startPoint 0
          (List.range collinearInput.polygons.length)) = 11 ∧
      ¬ (travel d collinearInput.startPoint
          (route collinearInput.polygons (collinearInput.optimize (fun _ => 0)).polyStart
            (collinearInput.optimize (fun _ => 0)).polyOrder)
        ≤ travel d collinearInput.startPoint
          (collinearInput.inputOrderRoute (fun _ => 0) collinearInput.startPoint 0
            (List.range collinearInput.polygons.length))) := by
  refine ⟨isEuclidean_exists, fun d hd => ?_⟩
  have e1 : route collinearInput.polygons (collinearInput.optimize (fun _ => 0)).polyStart
      (collinearInput.optimize (fun _ => 0)).polyOrder = [⟨2, 0⟩, ⟨5, 0⟩, ⟨-3, 0⟩] := by
    decide
  have e2 : collinearInput.inputOrderRoute (fun _ => 0) collinearInput.startPoint 0
      (List.range collinearInput.polygons.length) = [⟨-3, 0⟩, ⟨2, 0⟩, ⟨5, 0⟩] := by
    decide
  have e3 : collinearInput.startPoint = ⟨0, 0⟩ := rfl
  have d1 : d ⟨0, 0⟩ ⟨2, 0⟩ = 2 :=
    hd.eq_of_sq d _ _ 2 (by norm_num) (by norm_num [vSize2, Point.sub_def])
  have d2 : d ⟨2, 0⟩ ⟨5, 0⟩ = 3 :=
    hd.eq_of_sq d _ _ 3 (by norm_num) (by norm_num [vSize2, Point.sub_def])
  have d3 : d ⟨5, 0⟩ ⟨-3, 0⟩ = 8 :=
    hd.eq_of_sq d _ _ 8 (by norm_num) (by norm_num [vSize2, Point.sub_def])
  have d4 : d ⟨0, 0⟩ ⟨-3, 0⟩ = 3 :=
    hd.eq_of_sq d _ _ 3 (by norm_num) (by norm_num [vSize2, Point.sub_def])
  have d5 : d ⟨-3, 0⟩ ⟨2, 0⟩ = 5 :=
    hd.eq_of_sq d _ _ 5 (by norm_num) (by norm_num [vSize2, Point.sub_def])
  rw [e1, e2, e3]
  simp only [travel, d1, d2, d3, d4, d5]
  norm_num

/-- The scan returns an element whose key is at most the key of the initial best element
and of every scanned element. -/
theorem nearestScan_le {α : Type} (key : α → Int) (xs : List α) :
    ∀ best : α, key (nearestScan key xs best) ≤ key best ∧
      ∀ y, y ∈ xs → key (nearestScan key xs best) ≤ key y := by
  induction xs with
  | nil => intro best; simp [nearestScan]
  | cons x xs ih =>
    intro best
    unfold nearestScan
    split
    next hlt =>
      obtain ⟨h1, h2⟩ := ih x
      refine ⟨le_trans h1 (le_of_lt hlt), fun y hy => ?_⟩
      rcases List.mem_cons.mp hy with h | h
      · rw [h]; exact h1
      · exact h2 y h
    next hge =>
      obtain ⟨h1, h2⟩ := ih best
      refine ⟨h1, fun y hy => ?_⟩
      rcases List.mem_cons.mp hy with h | h
      · rw [h]; exact le_trans h1 (not_lt.mp hge)
      · exact h2 y h

/-- The selected element has minimal key in the list. -/
theorem nearest_le {α : Type} (key : α → Int) (l : List α) (x : α)
    (h : nearest key l = some x) : ∀ y, y ∈ l → key x ≤ key y := by
  cases l with
  | nil => simp [nearest] at h
  | cons a as =>
    simp only [nearest, Option.some.injEq] at h
    intro y hy
    rw [← h]
    rcases List.mem_cons.mp hy with h1 | h1
    · rw [h1]; exact (nearestScan_le key as a).1
    · exact (nearestScan_le key as a).2 y h1

/-- The greedy loop writes the start index of unvisited shapes only. -/
theorem PathOrderOptimizer.optimizeLoop_untouched (s : PathOrderOptimizer) (rng : Nat → Nat)
    (i : Nat) :
    ∀ (fuel : Nat) (cur : Point) (ctr : Nat) (unvisited starts order : List Nat),
      i ∉ unvisited →
      (s.optimizeLoop rng fuel cur ctr unvisited starts order).1.getD i 0 = starts.getD i 0 := by
  intro fuel
  induction fuel with
  | zero => intro cur ctr unvisited starts order _; simp [PathOrderOptimizer.optimizeLoop]
  | succ fuel ih =>
    intro cur ctr unvisited starts order hi
    unfold PathOrderOptimizer.optimizeLoop
    split
    next => rfl
    next c hsome =>
      have hmem := (s.candidates_mem rng cur unvisited c ctr (nearest_mem _ _ _ hsome)).1
      have hne : c.1 ≠ i := fun h => hi (h ▸ hmem)
      rw [ih _ _ (unvisited.erase c.1) _ _ (fun h => hi (List.mem_of_mem_erase h))]
      simp [List.getElem?_set_ne hne]

/-- The scan returns its initial best element or an element of strictly smaller key. -/
theorem nearestScan_eq_or_lt {α : Type} (key : α → Int) (xs : List α) :
    ∀ best : α, nearestScan key xs best = best ∨ key (nearestScan key xs best) < key best := by
  induction xs with
  | nil => intro best; exact Or.inl rfl
  | cons x xs ih =>
    intro best
    unfold nearestScan
    split
    next hlt =>
      rcases ih x with h | h
      · rw [h]; exact Or.inr hlt
      · exact Or.inr (lt_trans h hlt)
    next => exact ih best

/-- In a list listed by increasing index `f`, the element the scan returns is strictly
nearer than every element of lower index. -/
theorem nearestScan_lowest {α : Type} (key : α → Int) (f : α → Nat) (xs : List α) :
    ∀ best : α, (best :: xs).Pairwise (fun a b => f a < f b) →
      ∀ y, y ∈ best :: xs → f y < f (nearestScan key xs best) →
        key (nearestScan key xs best) < key y := by
  induction xs with
  | nil =>
    intro best _ y hy hlt
    simp only [List.mem_singleton] at hy
    subst hy
    exact absurd hlt (lt_irrefl _)
  | cons x xs ih =>
    intro best hp y hy hlt
    have hbx : f best < f x := (List.pairwise_cons.mp hp).1 x (List.mem_cons_self _ _)
    have hpx : (x :: xs).Pairwise (fun a b => f a < f b) := (List.pairwise_cons.mp hp).2
    have hpb : (best :: xs).Pairwise (fun a b => f a < f b) :=
      hp.sublist (List.Sublist.cons₂ best (List.sublist_cons_self x xs))
    unfold nearestScan at hlt ⊢
    split at hlt
    next hkey =>
      rw [if_pos hkey]
      rcases List.mem_cons.mp hy with h | h
      · rw [h]
        exact lt_of_le_of_lt (nearestScan_le key xs x).1 hkey
      · exact ih x hpx y h hlt
    next hkey =>
      rw [if_neg hkey]
      rcases List.mem_cons.mp hy with h | h
      · exact ih best hpb y (h ▸ List.mem_cons_self _ _) hlt
      · rcases List.mem_cons.mp h with h2 | h2
        · rcases nearestScan_eq_or_lt key xs best with e | e
          · rw [e, h2] at hlt
            exact absurd hlt (by omega)
          · rw [h2]
            exact lt_of_lt_of_le e (not_lt.mp hkey)
        · exact ih best hpb y (List.mem_cons_of_mem _ h2) hlt

/-- In a list listed by increasing index `f`, the selected element is strictly nearer than
every element of lower index: ties go to the lowest index. -/
theorem nearest_lowest {α : Type} (key : α → Int) (f : α → Nat) (l : List α) (x : α)
    (h : nearest key l = some x) (hp : l.Pairwise (fun a b => f a < f b)) :
    ∀ y, y ∈ l → f y < f x → key x < key y := by
  cases l with
  | nil => simp [nearest] at h
  | cons a as =>
    simp only [nearest, Option.some.injEq] at h
    intro y hy hlt
    rw [← h] at hlt ⊢
    exact nearestScan_lowest key f as a hp y hy hlt

/-- The candidates are listed by increasing shape index when the unvisited shapes are. -/
theorem PathOrderOptimizer.candidates_pairwise (s : PathOrderOptimizer) (rng : Nat → Nat)
    (cur : Point) (ctr : Nat) (unvisited : List Nat)
    (h : unvisited.Pairwise (fun a b => a < b)) :
    (s.candidates rng cur ctr unvisited).Pairwise (fun a b => a.1 < b.1) := by
  have h2 := s.candidates_fst rng cur unvisited ctr
  rw [← h2, List.pairwise_map] at h
  exact h

/-- Every unvisited shape has exactly one candidate start index. -/
theorem PathOrderOptimizer.candidates_functional (s : PathOrderOptimizer) (rng : Nat → Nat)
    (cur : Point) (ctr : Nat) (unvisited : List Nat)
    (h : unvisited.Pairwise (fun a b => a < b)) (i v w : Nat)
    (hv : (i, v) ∈ s.candidates rng cur ctr unvisited)
    (hw : (i, w) ∈ s.candidates rng cur ctr unvisited) : v = w := by
  have hp := s.candidates_pairwise rng cur ctr unvisited h
  generalize s.candidates rng cur ctr unvisited = l at hv hw hp
  induction l with
  | nil => exact absurd hv (List.not_mem_nil _)
  | cons a as ih =>
    obtain ⟨ha, hpas⟩ := List.pairwise_cons.mp hp
    rcases List.mem_cons.mp hv with e1 | e1 <;> rcases List.mem_cons.mp hw with e2 | e2
    · have := e1.trans e2.symm
      exact (Prod.mk.inj this).2
    · have h3 : a.1 < (i, w).1 := ha _ e2
      rw [← e1] at h3
      exact absurd h3 (lt_irrefl _)
    · have h3 : a.1 < (i, v).1 := ha _ e1
      rw [← e2] at h3
      exact absurd h3 (lt_irrefl _)
    · exact ih e1 e2 hpas

/-- Removing a shape keeps the unvisited shapes listed by increasing index. -/
theorem pairwise_erase (l : List Nat) (i : Nat) (h : l.Pairwise (fun a b => a < b)) :
    (l.erase i).Pairwise (fun a b => a < b) :=
  h.sublist (List.erase_sublist i l)

/-- A list by strictly increasing index has no duplicates. -/
theorem nodup_of_pairwise_lt (l : List Nat) (h : l.Pairwise (fun a b => a < b)) :
    l.Nodup :=
  h.imp (fun hab => Nat.ne_of_lt hab)

/-- The greedy loop extends the order by the unvisited shapes, and the extension has the
greedy property from the state the loop starts in. -/
theorem PathOrderOptimizer.optimizeLoop_greedy (s : PathOrderOptimizer) (rng : Nat → Nat) :
    ∀ (fuel : Nat) (cur : Point) (ctr : Nat) (unvisited starts order : List Nat),
      unvisited.Pairwise (fun a b => a < b) → unvisited.length ≤ fuel →
      (∀ i, i ∈ unvisited → i < starts.length) →
      ∃ t, (s.optimizeLoop rng fuel cur ctr unvisited starts order).2 = order ++ t ∧
        t.Perm unvisited ∧
        s.GreedyLegs rng (s.optimizeLoop rng fuel cur ctr unvisited starts order).1
          cur ctr unvisited t := by
  intro fuel
  induction fuel with
  | zero =>
    intro cur ctr unvisited starts order _ h _
    have : unvisited = [] := List.eq_nil_of_length_eq_zero (Nat.le_zero.mp h)
    subst this
    exact ⟨[], by simp [PathOrderOptimizer.optimizeLoop], List.Perm.refl _, trivial⟩
  | succ fuel ih =>
    intro cur ctr unvisited starts order hsorted hlen hbound
    have hnd := nodup_of_pairwise_lt unvisited hsorted
    unfold PathOrderOptimizer.optimizeLoop
    split
    next hnone =>
      have h1 := nearest_eq_none _ _ hnone
      have h2 := s.candidates_fst rng cur unvisited ctr
      rw [h1] at h2
      simp only [List.map_nil] at h2
      subst h2
      exact ⟨[], by simp, List.Perm.refl _, trivial⟩
    next c hsome =>
      have hc := nearest_mem _ _ _ hsome
      have hmem := (s.candidates_mem rng cur unvisited c ctr hc).1
      have hlen2 : (unvisited.erase c.1).length ≤ fuel := by
        rw [List.length_erase_of_mem hmem]
        omega
      have hbound2 : ∀ i, i ∈ unvisited.erase c.1 → i < (starts.set c.1 c.2).length := by
        intro i hi
        rw [List.length_set]
        exact hbound i (List.mem_of_mem_erase hi)
      obtain ⟨t, ht1, ht2, ht3⟩ := ih (((s.polygons.getD c.1 []).get? c.2).getD cur)
        (ctr + unvisited.length) (unvisited.erase c.1) (starts.set c.1 c.2) (order ++ [c.1])
        (pairwise_erase unvisited c.1 hsorted) hlen2 hbound2
      have hnot : c.1 ∉ unvisited.erase c.1 := fun h => ((hnd.mem_erase_iff).mp h).1 rfl
      have hstart := s.optimizeLoop_untouched rng c.1 fuel
        (((s.polygons.getD c.1 []).get? c.2).getD cur) (ctr + unvisited.length)
        (unvisited.erase c.1) (starts.set c.1 c.2) (order ++ [c.1]) hnot
      have hset : (starts.set c.1 c.2).getD c.1 0 = c.2 := by
        simp [List.getElem?_set_self (hbound c.1 hmem)]
      rw [hset] at hstart
      have hperm : (c.1 :: t).Perm unvisited :=
        (List.Perm.cons c.1 ht2).trans (List.perm_cons_erase hmem).symm
      refine ⟨c.1 :: t, by rw [ht1]; simp, hperm, ?_⟩
      unfold PathOrderOptimizer.GreedyLegs
      rw [hstart]
      refine ⟨⟨hc, fun c2 hc2 => ⟨nearest_le _ _ _ hsome c2 hc2, fun hlt => ?_⟩⟩, ht3⟩
      exact nearest_lowest _ Prod.fst _ c hsome
        (s.candidates_pairwise rng cur ctr unvisited hsorted) c2 hc2 hlt

/-- The greedy property determines the visit order: two orders of the same length with the
greedy property from the same loop state are equal. -/
theorem PathOrderOptimizer.greedyLegs_unique (s : PathOrderOptimizer) (rng : Nat → Nat) :
    ∀ (order order2 : List Nat) (starts starts2 : List Nat) (cur : Point) (ctr : Nat)
      (unvisited : List Nat),
      unvisited.Pairwise (fun a b => a < b) → order.length = order2.length →
      s.GreedyLegs rng starts cur ctr unvisited order →
      s.GreedyLegs rng starts2 cur ctr unvisited order2 → order = order2 := by
  intro order
  induction order with
  | nil =>
    intro order2 starts starts2 cur ctr unvisited _ hlen _ _
    exact (List.eq_nil_of_length_eq_zero hlen.symm).symm
  | cons i rest ih =>
    intro order2 starts starts2 cur ctr unvisited hsorted hlen h1 h2
    cases order2 with
    | nil => simp at hlen
    | cons j rest2 =>
      unfold PathOrderOptimizer.GreedyLegs at h1 h2
      obtain ⟨⟨hi, hmin1⟩, htail1⟩ := h1
      obtain ⟨⟨hj, hmin2⟩, htail2⟩ := h2
      have a1 := hmin1 _ hj
      have a2 := hmin2 _ hi
      simp only at a1 a2
      have hij : i = j := by
        rcases Nat.lt_trichotomy i j with h | h | h
        · have := a2.2 h
          exact absurd (lt_of_lt_of_le this a1.1) (lt_irrefl _)
        · exact h
        · have := a1.2 h
          exact absurd (lt_of_lt_of_le this a2.1) (lt_irrefl _)
      subst hij
      have hv : starts.getD i 0 = starts2.getD i 0 :=
        s.candidates_functional rng cur ctr unvisited hsorted i _ _ hi hj
      rw [← hv] at htail2
      have := ih rest2 starts starts2 _ _ _ (pairwise_erase unvisited i hsorted)
        (by simpa using hlen) htail1 htail2
      rw [this]

/-- C4 (amended): the order produced by `optimize()` is the greedy nearest-neighbour order.
With `polyOrder` and `polyStart` read as natural numbers, `polyOrder` is a permutation of
the shape indices, every start index is valid for its shape, and at every step, from the
start point with all shapes unvisited, the shape visited next is, among the shapes not yet
visited, the one whose candidate start vertex (the one the seam policy computes from the
then-current position, with that step's draw under RANDOM) is nearest to the then-current
position, the lowest shape index on ties, its recorded start index being that candidate;
no other order of the shapes has this property. The total travel distance is not bounded
by that of the input order. -/
theorem greedy_legs_minimal (s : PathOrderOptimizer) (rng : Nat → Nat) :
    ∃ starts order : List Nat,
      (s.optimize rng).polyStart = starts.map Int.ofNat ∧
      (s.optimize rng).polyOrder = order.map Int.ofNat ∧
      order.Perm (List.range s.polygons.length) ∧
      AllValid s.polygons starts ∧
      s.GreedyLegs rng starts s.startPoint 0 (List.range s.polygons.length) order ∧
      ∀ (starts2 order2 : List Nat), order2.length = s.polygons.length →
        s.GreedyLegs rng starts2 s.startPoint 0 (List.range s.polygons.length) order2 →
        order2 = order := by
  obtain ⟨t, ht1, ht2, ht3⟩ := s.optimizeLoop_greedy rng s.polygons.length s.startPoint 0
    (List.range s.polygons.length) (List.replicate s.polygons.length 0) []
    (List.pairwise_lt_range _) (by simp) (by intro i hi; simpa using hi)
  have hvalid := s.optimizeLoop_valid rng s.polygons.length s.startPoint 0
    (List.range s.polygons.length) (List.replicate s.polygons.length 0) []
    (allValid_replicate _)
  have hperm : (s.optimizeLoop rng s.polygons.length s.startPoint 0
      (List.range s.polygons.length) (List.replicate s.polygons.length 0) []).2.Perm
      (List.range s.polygons.length) := by
    rw [ht1]; simpa using ht2
  have hgreedy : s.GreedyLegs rng (s.optimizeLoop rng s.polygons.length s.startPoint 0
      (List.range s.polygons.length) (List.replicate s.polygons.length 0) []).1
      s.startPoint 0 (List.range s.polygons.length)
      (s.optimizeLoop rng s.polygons.length s.startPoint 0
      (List.range s.polygons.length) (List.replicate s.polygons.length 0) []).2 := by
    rw [ht1]; simpa using ht3
  refine ⟨_, _, rfl, rfl, hperm, hvalid, hgreedy, ?_⟩
  intro starts2 order2 hlen h2
  refine s.greedyLegs_unique rng order2 _ starts2 _ s.startPoint 0 _
    (List.pairwise_lt_range _) ?_ h2 hgreedy
  rw [hlen, hperm.length_eq, List.length_range]


/-- The greedy property is not met by the input order in general: under RANDOM with every
draw `0`, for the polygons `[(5,0),(6,0)]` and `[(1,0),(100,0)]` and the start point at
the origin, `optimize()` visits shape 1 first, and the input order `0, 1` has the greedy
property for no array of start indices. -/
theorem greedyLegs_excludes_input_order :
    (randomInput.optimize (fun _ => 0)).polyOrder = [1, 0] ∧
    ∀ starts : List Nat,
      ¬ randomInput.GreedyLegs (fun _ => 0) starts randomInput.startPoint 0
          (List.range randomInput.polygons.length) [0, 1] := by
  refine ⟨by decide, fun starts h => ?_⟩
  have hr : List.range randomInput.polygons.length = [0, 1] := by decide
  have hc : randomInput.candidates (fun _ => 0) randomInput.startPoint 0 [0, 1]
      = [(0, 0), (1, 0)] := by decide
  rw [hr] at h
  unfold PathOrderOptimizer.GreedyLegs at h
  obtain ⟨⟨hmem, hmin⟩, _⟩ := h
  rw [hc] at hmem hmin
  have hv : starts.getD 0 0 = 0 := by
    rcases List.mem_cons.mp hmem with e | e
    · exact (Prod.mk.inj e).2
    · rcases List.mem_cons.mp e with e2 | e2
      · exact absurd (Prod.mk.inj e2).1 (by decide)
      · exact absurd e2 (List.not_mem_nil _)
  have h1 := (hmin (1, 0) (by simp)).1
  rw [hv] at h1
  revert h1
  decide

/-! ## Instances at concrete inputs -/

/-- Witness of `shortest_single_polygon` on a polygon of four points whose second and
third points tie for the minimal distance. -/
theorem shortest_single_polygon_witness :
    (singleInput.type = EZSeamType.SHORTEST ∧
      singleInput.polygons = [[⟨3, 0⟩, ⟨1, 1⟩, ⟨-1, 1⟩, ⟨5, 5⟩]] ∧
      ([⟨3, 0⟩, ⟨1, 1⟩, ⟨-1, 1⟩, ⟨5, 5⟩] : Polygon) ≠ []) ∧
    ∃ k : Nat, (singleInput.optimize (fun _ => 0)).polyStart = [Int.ofNat k] ∧
      k < ([⟨3, 0⟩, ⟨1, 1⟩, ⟨-1, 1⟩, ⟨5, 5⟩] : Polygon).length ∧
      (∀ j, j < ([⟨3, 0⟩, ⟨1, 1⟩, ⟨-1, 1⟩, ⟨5, 5⟩] : Polygon).length →
        vertexDist2 singleInput.startPoint [⟨3, 0⟩, ⟨1, 1⟩, ⟨-1, 1⟩, ⟨5, 5⟩] k
          ≤ vertexDist2 singleInput.startPoint [⟨3, 0⟩, ⟨1, 1⟩, ⟨-1, 1⟩, ⟨5, 5⟩] j) ∧
      (∀ j, j < k →
        vertexDist2 singleInput.startPoint [⟨3, 0⟩, ⟨1, 1⟩, ⟨-1, 1⟩, ⟨5, 5⟩] k
          < vertexDist2 singleInput.startPoint [⟨3, 0⟩, ⟨1, 1⟩, ⟨-1, 1⟩, ⟨5, 5⟩] j) :=
  ⟨⟨rfl, rfl, by decide⟩,
    shortest_single_polygon singleInput (fun _ => 0) [⟨3, 0⟩, ⟨1, 1⟩, ⟨-1, 1⟩, ⟨5, 5⟩]
      rfl rfl (by decide)⟩

/-- Witness of `optimize_empty` on a freshly constructed path optimiser and a line
optimiser without lines. -/
theorem optimize_empty_witness :
    ((PathOrderOptimizer.constructDefault ⟨0, 0⟩).polygons = [] ∧ emptyLines.lines = []) ∧
    ((((PathOrderOptimizer.constructDefault ⟨0, 0⟩).optimize (fun _ => 0)).polyOrder = [] ∧
      ((PathOrderOptimizer.constructDefault ⟨0, 0⟩).optimize (fun _ => 0)).polyStart = []) ∧
    (emptyLines.optimize.polyOrder = [] ∧ emptyLines.optimize.polyStart = [])) :=
  ⟨⟨rfl, rfl⟩,
    optimize_empty (PathOrderOptimizer.constructDefault ⟨0, 0⟩) (fun _ => 0) emptyLines rfl rfl⟩


/-! ## Frame of the add calls -/

/-- C11: `addPolygon` and `addPolygons` change the shape list only. On a
`PathOrderOptimizer` they leave `startPoint`, `type`, `polyStart` and `polyOrder` as they
are; on a `LineOrderOptimizer` they leave `startPoint`, `cluster_grid_size`, `polyStart`
and `polyOrder` as they are. -/
theorem add_calls_frame (s : PathOrderOptimizer) (l : LineOrderOptimizer) (p : Polygon)
    (ps : Polygons) :
    ((s.addPolygon p).startPoint = s.startPoint ∧ (s.addPolygon p).type = s.type ∧
      (s.addPolygon p).polyStart = s.polyStart ∧ (s.addPolygon p).polyOrder = s.polyOrder) ∧
    ((s.addPolygons ps).startPoint = s.startPoint ∧ (s.addPolygons ps).type = s.type ∧
      (s.addPolygons ps).polyStart = s.polyStart ∧
      (s.addPolygons ps).polyOrder = s.polyOrder) ∧
    ((l.addPolygon p).startPoint = l.startPoint ∧
      (l.addPolygon p).cluster_grid_size = l.cluster_grid_size ∧
      (l.addPolygon p).polyStart = l.polyStart ∧ (l.addPolygon p).polyOrder = l.polyOrder) ∧
    ((l.addPolygons ps).startPoint = l.startPoint ∧
      (l.addPolygons ps).cluster_grid_size = l.cluster_grid_size ∧
      (l.addPolygons ps).polyStart = l.polyStart ∧
      (l.addPolygons ps).polyOrder = l.polyOrder) := by
  rw [PathOrderOptimizer.addPolygons_eq, LineOrderOptimizer.addLines_eq]
  simp [PathOrderOptimizer.addPolygon, LineOrderOptimizer.addPolygon]

/-! ## Rounding division without wrap-around -/

/-- Quotient bounds of natural division: `a / d * d ≤ a < a / d * d + d`. -/
theorem div_bounds (a d : Nat) (hd : 0 < d) : a / d * d ≤ a ∧ a < a / d * d + d :=
  ⟨Nat.div_mul_le_self a d, Nat.lt_div_mul_add hd⟩

/-- C12: for a divisor `d > 0` and `n + d - 1 < 2^32` (no wrap-around),
`round_up_divide n d` is the ceiling of `n / d`: it is a `q` with `q * d ≥ n`, it is at
most every natural number `q` with `q * d ≥ n`, and it equals the ceiling of the rational
quotient. -/
theorem round_up_divide_is_ceiling (n d : Nat) (hd : 0 < d) (h : n + d - 1 < 2 ^ 32) :
    n ≤ round_up_divide n d * d ∧
    (∀ q : Nat, n ≤ q * d → round_up_divide n d ≤ q) ∧
    round_up_divide n d = ⌈(n : ℚ) / (d : ℚ)⌉₊ := by
  have hle : n ≤ round_up_divide n d * d := by
    rw [round_up_divide_exact n d hd h]
    have hb := div_bounds (n + d - 1) d hd
    omega
  have hleast : ∀ q : Nat, n ≤ q * d → round_up_divide n d ≤ q := by
    intro q hq
    rw [round_up_divide_exact n d hd h]
    apply Nat.lt_succ_iff.mp
    rw [Nat.div_lt_iff_lt_mul hd, Nat.succ_mul]
    omega
  have hdq : (0 : ℚ) < (d : ℚ) := by exact_mod_cast hd
  refine ⟨hle, hleast, le_antisymm ?_ ?_⟩
  · apply hleast
    have h1 : (n : ℚ) / (d : ℚ) ≤ (⌈(n : ℚ) / (d : ℚ)⌉₊ : ℚ) := Nat.le_ceil _
    have h2 : (n : ℚ) ≤ (⌈(n : ℚ) / (d : ℚ)⌉₊ : ℚ) * (d : ℚ) := (div_le_iff₀ hdq).mp h1
    exact_mod_cast h2
  · rw [Nat.ceil_le, div_le_iff₀ hdq]
    exact_mod_cast hle

/-- Witness of `round_up_divide_is_ceiling` at dividend 10, divisor 4 (result 3). -/
theorem round_up_divide_is_ceiling_witness :
    (0 < 4 ∧ 10 + 4 - 1 < 2 ^ 32) ∧
    (10 ≤ round_up_divide 10 4 * 4 ∧
      (∀ q : Nat, 10 ≤ q * 4 → round_up_divide 10 4 ≤ q) ∧
      round_up_divide 10 4 = ⌈((10 : Nat) : ℚ) / ((4 : Nat) : ℚ)⌉₊) :=
  ⟨by decide, round_up_divide_is_ceiling 10 4 (by decide) (by decide)⟩

/-- C13: for a divisor `d > 0` and `n + d / 2 < 2^32` (no wrap-around), the result `r` of
`round_divide n d` satisfies `2 * |r * d - n| ≤ d` over the integers, and in the exact tie
`2 * (n mod d) = d` it is the larger neighbour `n / d + 1`. -/
theorem round_divide_nearest (n d : Nat) (hd : 0 < d) (h : n + d / 2 < 2 ^ 32) :
    2 * |((round_divide n d : Nat) : Int) * (d : Int) - (n : Int)| ≤ (d : Int) ∧
    (2 * (n % d) = d → round_divide n d = n / d + 1) := by
  rw [round_divide_exact n d h]
  constructor
  · have hb := div_bounds (n + d / 2) d hd
    have hcast : (((n + d / 2) / d : Nat) : Int) * (d : Int)
        = (((n + d / 2) / d * d : Nat) : Int) := by push_cast; rfl
    rw [hcast]
    generalize (n + d / 2) / d * d = X at hb ⊢
    have h1 : -((d : Int)) ≤ 2 * ((X : Int) - (n : Int)) := by omega
    have h2 : 2 * ((X : Int) - (n : Int)) ≤ (d : Int) := by omega
    rcases abs_cases ((X : Int) - (n : Int)) with ⟨e, _⟩ | ⟨e, _⟩ <;> rw [e] <;> omega
  · intro htie
    have hsplit : n + d / 2 = d * (n / d + 1) := by
      have := Nat.div_add_mod n d
      rw [Nat.mul_add, Nat.mul_one]
      omega
    rw [hsplit, Nat.mul_div_cancel_left _ hd]

/-- Witness of `round_divide_nearest` at dividend 10, divisor 4, an exact tie
(result 3). -/
theorem round_divide_nearest_witness :
    (0 < 4 ∧ 10 + 4 / 2 < 2 ^ 32) ∧
    (2 * |((round_divide 10 4 : Nat) : Int) * ((4 : Nat) : Int) - ((10 : Nat) : Int)|
        ≤ ((4 : Nat) : Int) ∧
      (2 * (10 % 4) = 4 → round_divide 10 4 = 10 / 4 + 1)) :=
  ⟨by decide, round_divide_nearest 10 4 (by decide) (by decide)⟩

/-- C14: for a divisor `d > 0` and `n + d - 1 < 2^32`,
`n / d ≤ round_divide n d ≤ round_up_divide n d ≤ n / d + 1`. -/
theorem rounding_order (n d : Nat) (hd : 0 < d) (h : n + d - 1 < 2 ^ 32) :
    n / d ≤ round_divide n d ∧ round_divide n d ≤ round_up_divide n d ∧
    round_up_divide n d ≤ n / d + 1 := by
  have h2 : n + d / 2 < 2 ^ 32 := by omega
  rw [round_divide_exact n d h2, round_up_divide_exact n d hd h]
  refine ⟨Nat.div_le_div_right (by omega), Nat.div_le_div_right (by omega), ?_⟩
  rw [← Nat.add_div_right n hd]
  exact Nat.div_le_div_right (by omega)

/-- Witness of `rounding_order` at dividend 9, divisor 4 (floor 2, nearest 2,
rounded up 3). -/
theorem rounding_order_witness :
    (0 < 4 ∧ 9 + 4 - 1 < 2 ^ 32) ∧
    (9 / 4 ≤ round_divide 9 4 ∧ round_divide 9 4 ≤ round_up_divide 9 4 ∧
      round_up_divide 9 4 ≤ 9 / 4 + 1) :=
  ⟨by decide, rounding_order 9 4 (by decide) (by decide)⟩

/-- C15: division undoes multiplication for both helpers: for `d > 0` and
`k * d + d - 1 < 2^32`, `round_divide (k * d) d = k` and `round_up_divide (k * d) d = k`. -/
theorem divide_undoes_multiply (k d : Nat) (hd : 0 < d) (h : k * d + d - 1 < 2 ^ 32) :
    round_divide (k * d) d = k ∧ round_up_divide (k * d) d = k := by
  have h2 : k * d + d / 2 < 2 ^ 32 := by omega
  rw [round_divide_exact (k * d) d h2, round_up_divide_exact (k * d) d hd h]
  constructor
  · apply Nat.div_eq_of_lt_le
    · omega
    · rw [Nat.add_mul, Nat.one_mul]; omega
  · apply Nat.div_eq_of_lt_le
    · omega
    · rw [Nat.add_mul, Nat.one_mul]; omega

/-- Witness of `divide_undoes_multiply` at `k = 6`, `d = 7`. -/
theorem divide_undoes_multiply_witness :
    (0 < 7 ∧ 6 * 7 + 7 - 1 < 2 ^ 32) ∧
    (round_divide (6 * 7) 7 = 6 ∧ round_up_divide (6 * 7) 7 = 6) :=
  ⟨by decide, divide_undoes_multiply 6 7 (by decide) (by decide)⟩

/-! ## Construction -/

/-- C16: a `PathOrderOptimizer` constructed from a point `p` alone has seam policy
SHORTEST, start point `p` and an empty shape list; constructed from `p` and a policy `t`
it has seam policy `t` and start point `p`. -/
theorem constructor_members (p : Point) (t : EZSeamType) :
    ((PathOrderOptimizer.constructDefault p).type = EZSeamType.SHORTEST ∧
      (PathOrderOptimizer.constructDefault p).startPoint = p ∧
      (PathOrderOptimizer.constructDefault p).polygons = []) ∧
    ((PathOrderOptimizer.construct p t).type = t ∧
      (PathOrderOptimizer.construct p t).startPoint = p) :=
  ⟨⟨rfl, rfl, rfl⟩, ⟨rfl, rfl⟩⟩


end cura
